import Mathlib

/-!
Verification of the computation-graph engine (reverse-mode automatic
differentiation) from `graph.py` and `node.py`.

Values are numpy arrays; we embed them as `Tensor`: a shape (list of
dimension sizes, the leading dimension being the batch dimension) together
with row-major flat data.  Every operation of the engine is a ring
operation (add, multiply, negate, sum — no division occurs), so entries
are carried in `ℤ`.  Operations that numpy performs with broadcasting are
embedded with numpy's right-aligned broadcasting rules and return
`Option` (numpy raises on incompatible shapes).
-/

structure Tensor where
  shape : List Nat
  data : List ℤ
deriving DecidableEq, Repr

/-- `np.full(shape, q)` / `np.zeros(shape)` (row-major). -/
def constTensor (shape : List Nat) (q : ℤ) : Tensor :=
  ⟨shape, List.replicate shape.prod q⟩

/-- `np.zeros_like(t)`. -/
def zerosLike (t : Tensor) : Tensor :=
  ⟨t.shape, t.data.map (fun _ => 0)⟩

/-- numpy broadcasting of two shapes, given reversed (innermost-first). -/
def bshapeRev : List Nat → List Nat → Option (List Nat)
  | [], ys => some ys
  | x :: xs, [] => some (x :: xs)
  | x :: xs, y :: ys =>
    match bshapeRev xs ys with
    | none => none
    | some rest =>
      if x = y then some (x :: rest)
      else if x = 1 then some (y :: rest)
      else if y = 1 then some (x :: rest)
      else none

/-- numpy broadcasting of two shapes (right-aligned). -/
def bshape (a b : List Nat) : Option (List Nat) :=
  (bshapeRev a.reverse b.reverse).map List.reverse

/-- All multi-indices of a shape, in row-major order. -/
def indicesOf : List Nat → List (List Nat)
  | [] => [[]]
  | d :: ds => (List.range d).flatMap (fun i => (indicesOf ds).map (fun idx => i :: idx))

/-- Row-major flat offset of a multi-index in a shape. -/
def flatIndex : List Nat → List Nat → Nat
  | [], _ => 0
  | _ :: _, [] => 0
  | d :: ds, i :: is =>
    let _ := d
    i * ds.prod + flatIndex ds is

/-- Align a (possibly longer) result multi-index to a tensor's own shape:
drop leading extra coordinates and clamp coordinates of size-1 dimensions
to 0 (numpy broadcast read). -/
def alignIdx (tshape fullIdx : List Nat) : List Nat :=
  let idx := fullIdx.drop (fullIdx.length - tshape.length)
  (tshape.zip idx).map (fun p => if p.1 = 1 then 0 else p.2)

/-- Broadcast-aware read of one element. -/
def tRead (t : Tensor) (fullIdx : List Nat) : ℤ :=
  (t.data[flatIndex t.shape (alignIdx t.shape fullIdx)]?).getD 0

/-- Elementwise binary operation with numpy broadcasting. -/
def ewise (f : ℤ → ℤ → ℤ) (a b : Tensor) : Option Tensor :=
  (bshape a.shape b.shape).map
    (fun s => ⟨s, (indicesOf s).map (fun idx => f (tRead a idx) (tRead b idx))⟩)

/-- numpy `a + b`. -/
def tAdd (a b : Tensor) : Option Tensor := ewise (· + ·) a b

/-- numpy `np.multiply(a, b)`. -/
def tMul (a b : Tensor) : Option Tensor := ewise (· * ·) a b

/-- numpy `-a`. -/
def tNeg (t : Tensor) : Tensor := ⟨t.shape, t.data.map (fun q => -q)⟩

/-- numpy in-place `a += b`: the result must keep `a`'s shape (the
broadcast may not enlarge the output operand). -/
def iadd (a b : Tensor) : Option Tensor :=
  match bshape a.shape b.shape with
  | none => none
  | some s => if s = a.shape then ewise (· + ·) a b else none

/-- Python `sum(c.value for c in children)`: a fold of `+` starting from
the scalar `0`. -/
def pySum (ts : List Tensor) : Option Tensor :=
  ts.foldl (fun acc t =>
    match acc with
    | none => none
    | some a => tAdd a t) (some ⟨[], [0]⟩)

/-- `np.einsum('...j,...j->...', a, b)`: contract the last axis, broadcast
the leading axes.  The labelled axis sizes must agree; rank-0 operands are
rejected (as numpy does for a labelled subscript). -/
def dotLast (a b : Tensor) : Option Tensor :=
  match a.shape.getLast?, b.shape.getLast? with
  | some ja, some jb =>
    if ja = jb then
      (bshape a.shape.dropLast b.shape.dropLast).map (fun p =>
        ⟨p, (indicesOf p).map (fun idx =>
          ((List.range ja).map (fun j => tRead a (idx ++ [j]) * tRead b (idx ++ [j]))).sum)⟩)
    else none
  | _, _ => none

/-- `np.einsum('...j,...k->...jk', a, b)` (outer product on the last axes). -/
def outerLast (a b : Tensor) : Option Tensor :=
  match a.shape.getLast?, b.shape.getLast? with
  | some ja, some kb =>
    (bshape a.shape.dropLast b.shape.dropLast).map (fun p =>
      ⟨p ++ [ja, kb],
        (indicesOf p).flatMap (fun idx =>
          (List.range ja).flatMap (fun j =>
            (List.range kb).map (fun k => tRead a (idx ++ [j]) * tRead b (idx ++ [k]))))⟩)
  | _, _ => none

/-- `np.einsum('...j,...jk->...k', a, b)`. -/
def contractLast (a b : Tensor) : Option Tensor :=
  match a.shape.getLast?, b.shape.getLast?, b.shape.dropLast.getLast? with
  | some ja, some kb, some jb =>
    if ja = jb then
      (bshape a.shape.dropLast b.shape.dropLast.dropLast).map (fun p =>
        ⟨p ++ [kb],
          (indicesOf p).flatMap (fun idx =>
            (List.range kb).map (fun k =>
              ((List.range ja).map (fun j =>
                tRead a (idx ++ [j]) * tRead b (idx ++ [j, k]))).sum))⟩)
    else none
  | _, _, _ => none

/-- `np.einsum('...jk,...k->...j', a, b)` (matrix–vector product). -/
def matVecVal (a b : Tensor) : Option Tensor :=
  match a.shape.getLast?, a.shape.dropLast.getLast?, b.shape.getLast? with
  | some ka, some ja, some kb =>
    if ka = kb then
      (bshape a.shape.dropLast.dropLast b.shape.dropLast).map (fun p =>
        ⟨p ++ [ja],
          (indicesOf p).flatMap (fun idx =>
            (List.range ja).map (fun j =>
              ((List.range ka).map (fun k =>
                tRead a (idx ++ [j, k]) * tRead b (idx ++ [k]))).sum))⟩)
    else none
  | _, _, _ => none

/-!
## The node layer (`node.py`)

Python nodes are heap objects; a node's `parents` list is populated by
registration at construction time, and dictionaries/sets used by the graph
are keyed on object identity.  We embed the set of all constructed nodes as
a list (`CGraph.nodes`) and refer to nodes by their index, which models
object identity.  `parents` is not stored: the registered parents of `c`
are exactly the constructed nodes listing `c` among their children.
-/

inductive Op
  | variable_
  | constant
  | elemAdd
  | elemMultiply
  | scalarMultiply
  | matVecMultiply
  | negate
deriving DecidableEq, Repr

/-- Errors raised by the node layer.  `shapeMismatch` stands for the
`ValueError`s raised on incompatible shapes (the spec's ShapeMismatch),
`notAScalar` for the `TypeError` of `ScalarMultiply.__init__`, and
`unsupported` for `NotImplemented` results of the operator surface. -/
inductive GErr
  | shapeMismatch
  | notAScalar
  | unsupported
deriving DecidableEq, Repr

structure GNode where
  children : List Nat
  op : Op
  shape : List Nat
  value : Tensor
deriving DecidableEq, Repr

structure CGraph where
  nodes : List GNode
deriving DecidableEq, Repr

def childrenOf (g : CGraph) (i : Nat) : List Nat :=
  ((g.nodes[i]?).map (·.children)).getD []

def shapeOf (g : CGraph) (i : Nat) : List Nat :=
  ((g.nodes[i]?).map (·.shape)).getD []

def opOf (g : CGraph) (i : Nat) : Op :=
  ((g.nodes[i]?).map (·.op)).getD .variable_

/-- The values initially stored on the nodes (each `Node.__init__` sets
`self.value`; see `GNode.init`). -/
def initVals (g : CGraph) : List Tensor := g.nodes.map (·.value)

/-- The unique registered parents of node `c`: all constructed nodes that
list `c` among their children (`set(child.parents)` in the source, since
`Node.__init__` appends itself to `child.parents` once per occurrence). -/
def uniqueParents (g : CGraph) (c : Nat) : List Nat :=
  (List.range g.nodes.length).filter (fun p => c ∈ childrenOf g p)

/-- `Node.__setattr__` for the `value` attribute: the assigned array's
shape with its first (batch) dimension removed must equal the node's
declared shape, otherwise a `ValueError` ("Wrong value shape") is raised.
-/
def setValue (nd : GNode) (v : Tensor) : Except GErr GNode :=
  if v.shape.drop 1 = nd.shape then .ok { nd with value := v }
  else .error .shapeMismatch

/-- The `value` argument of `Node.__init__`: absent, a python scalar, or a
numpy array. -/
inductive ValueArg
  | noneV
  | scalarV (q : ℤ)
  | tensorV (t : Tensor)

/-- `Node.__init__`: if no value is given the value is `np.zeros((1, *shape))`;
a scalar becomes `np.full((1, *shape), scalar)`; an array must have shape
`(?, *shape)` or a `ValueError` is raised. -/
def GNode.init (op : Op) (children : List Nat) (shape : List Nat) (value : ValueArg) :
    Except GErr GNode :=
  match value with
  | .noneV => .ok ⟨children, op, shape, constTensor (1 :: shape) 0⟩
  | .scalarV q => .ok ⟨children, op, shape, constTensor (1 :: shape) q⟩
  | .tensorV t =>
    if shape = t.shape.drop 1 then .ok ⟨children, op, shape, t⟩
    else .error .shapeMismatch

/-- Append a freshly constructed node (parent registration is implicit:
parents are recovered by scanning all nodes). -/
def CGraph.push (g : CGraph) (nd : GNode) : CGraph × Nat :=
  (⟨g.nodes ++ [nd]⟩, g.nodes.length)

/-- `Variable(value)`: leaf with `shape = value.shape[1:]`. -/
def mkVariable (g : CGraph) (value : Tensor) : CGraph × Nat :=
  g.push ⟨[], .variable_, value.shape.drop 1, value⟩

/-- Modelled from the spec: the `Constant` class is referenced by
`Node.__add__` and `Node.__sub__` but is not defined anywhere in the
repository source; the spec describes it as "`Constant` (leaf, fixed
value)".  We model `Constant(q)` for a plain scalar `q` as a leaf node of
shape `()` holding `np.full((1,), q)`, by analogy with `Variable`. -/
def mkConstantScalar (g : CGraph) (q : ℤ) : CGraph × Nat :=
  g.push ⟨[], .constant, [], ⟨[1], [q]⟩⟩

/-- `ElemAdd.__init__`: children of differing shapes raise a `ValueError`. -/
def mkElemAdd (g : CGraph) (l r : Nat) : Except GErr (CGraph × Nat) :=
  if shapeOf g l ≠ shapeOf g r then .error .shapeMismatch
  else .ok (g.push ⟨[l, r], .elemAdd, shapeOf g l, constTensor (1 :: shapeOf g l) 0⟩)

/-- `ElemMultiply.__init__`: children of differing shapes raise a `ValueError`. -/
def mkElemMultiply (g : CGraph) (l r : Nat) : Except GErr (CGraph × Nat) :=
  if shapeOf g l ≠ shapeOf g r then .error .shapeMismatch
  else .ok (g.push ⟨[l, r], .elemMultiply, shapeOf g l, constTensor (1 :: shapeOf g l) 0⟩)

/-- `ScalarMultiply.__init__(scalar, vector)`: a scalar child of rank > 1
raises a `TypeError`; the node's shape is the tensor child's shape. -/
def mkScalarMultiply (g : CGraph) (s v : Nat) : Except GErr (CGraph × Nat) :=
  if (shapeOf g s).length > 1 then .error .notAScalar
  else .ok (g.push ⟨[s, v], .scalarMultiply, shapeOf g v, constTensor (1 :: shapeOf g v) 0⟩)

/-- `MatVecMultiply.__init__(matrix, vector)`: requires
`matrix.shape[1] == vector.shape[0]`; the node's shape is `(matrix.shape[0],)`. -/
def mkMatVecMultiply (g : CGraph) (m v : Nat) : Except GErr (CGraph × Nat) :=
  if (shapeOf g m).getD 1 0 ≠ (shapeOf g v).getD 0 0 then .error .shapeMismatch
  else .ok (g.push ⟨[m, v], .matVecMultiply, [(shapeOf g m).getD 0 0],
    constTensor [1, (shapeOf g m).getD 0 0] 0⟩)

/-- `Negate.__init__(child)`. -/
def mkNegate (g : CGraph) (c : Nat) : CGraph × Nat :=
  g.push ⟨[c], .negate, shapeOf g c, constTensor (1 :: shapeOf g c) 0⟩

/-- The non-node operand of the operator surface: a plain python scalar. -/
inductive Operand
  | node (i : Nat)
  | scalar (q : ℤ)

/-- `Node.__add__`: a non-node operand is wrapped in a `Constant`, then an
`ElemAdd` is built. -/
def nodeAddOp (g : CGraph) (i : Nat) (other : Operand) : Except GErr (CGraph × Nat) :=
  match other with
  | .node j => mkElemAdd g i j
  | .scalar q =>
    let gj := mkConstantScalar g q
    mkElemAdd gj.1 i gj.2

/-- The shape-based dispatch of `Node.__mul__` once both operands are
nodes: elementwise for equal shapes, scalar multiplication when either
operand's shape sums to at most 1, matrix–vector when a rank-2 operand
meets a rank-1 operand with matching inner dimension, and
`NotImplemented` otherwise. -/
def mulDispatch (g : CGraph) (i j : Nat) : Except GErr (CGraph × Nat) :=
  if shapeOf g i = shapeOf g j then mkElemMultiply g i j
  else if (shapeOf g i).sum ≤ 1 then mkScalarMultiply g i j
  else if (shapeOf g j).sum ≤ 1 then mkScalarMultiply g j i
  else if (shapeOf g i).length = 2 ∧ (shapeOf g j).length = 1 then
    if (shapeOf g i).getD 1 0 ≠ (shapeOf g j).getD 0 0 then .error .unsupported
    else mkMatVecMultiply g i j
  else .error .unsupported

/-- `Node.__mul__`: a non-node operand is wrapped in a `Variable` built
from `np.array([other])` (shape `(1,)`, hence node shape `()`), then the
shape dispatch chooses the operation. -/
def nodeMulOp (g : CGraph) (i : Nat) (other : Operand) : Except GErr (CGraph × Nat) :=
  match other with
  | .node j => mulDispatch g i j
  | .scalar q =>
    let gj := mkVariable g ⟨[1], [q]⟩
    mulDispatch gj.1 i gj.2

/-- `Node.__sub__`: a non-node operand is wrapped in a `Constant`; the
result is `ElemAdd(self, Negate(other))`. -/
def nodeSubOp (g : CGraph) (i : Nat) (other : Operand) : Except GErr (CGraph × Nat) :=
  match other with
  | .node j =>
    let gk := mkNegate g j
    mkElemAdd gk.1 i gk.2
  | .scalar q =>
    let gj := mkConstantScalar g q
    let gk := mkNegate gj.1 gj.2
    mkElemAdd gk.1 i gk.2

/-!
## The graph orchestrator (`graph.py`)

`Graph._create_topological_ordering` is Kahn's algorithm run from the
root over unique child/parent relationships.  The Python `while`-loop is
embedded with explicit fuel; `none` means the fuel ran out.  `S` is the
Python stack (its top is our list head); `removed_edges` is embedded as a
list of `(child, parent)` pairs with set-like insertion.
-/

/-- `removed_edges[child].add(node)`: set-like insertion of the pair. -/
def addEdge (edges : List (Nat × Nat)) (c p : Nat) : List (Nat × Nat) :=
  if (c, p) ∈ edges then edges else (c, p) :: edges

/-- `removed_edges[child]` as a list of parents. -/
def edgeParents (edges : List (Nat × Nat)) (c : Nat) : List Nat :=
  (edges.filter (fun e => e.1 = c)).map (·.2)

/-- The body of `for child in set(node.children)`: record the satisfied
edge and push the child once all of its unique registered parents have
been popped. -/
def processChildren (g : CGraph) (parent : Nat) :
    List Nat → List Nat × List (Nat × Nat) → List Nat × List (Nat × Nat)
  | [], st => st
  | c :: cs, (S, edges) =>
    let edges' := addEdge edges c parent
    let S' := if (edgeParents edges' c).length = (uniqueParents g c).length
      then c :: S else S
    processChildren g parent cs (S', edges')

/-- The `while S:` loop of `Graph._create_topological_ordering`. -/
def topoLoop (g : CGraph) :
    Nat → List Nat → List Nat → List (Nat × Nat) → Option (List Nat)
  | _, [], ord, _ => some ord
  | 0, _ :: _, _, _ => none
  | fuel + 1, n :: S, ord, edges =>
    let st := processChildren g n (childrenOf g n).dedup (S, edges)
    topoLoop g fuel st.1 (ord ++ [n]) st.2

/-- `Graph._create_topological_ordering(root)` (also run by `__init__`
and `compile`). -/
def topoSort (g : CGraph) (root : Nat) (fuel : Nat) : Option (List Nat) :=
  topoLoop g fuel [root] [] []

/-- The value store: one tensor per constructed node (node `i`'s `value`
attribute).  Out-of-range reads return a junk scalar. -/
def getVal (vals : List Tensor) (i : Nat) : Tensor :=
  (vals[i]?).getD ⟨[], [0]⟩

/-- One `node.calc_value()` call: compute the node's value from its
children's current values and assign it through `__setattr__` (leaves are
no-ops; `Constant` is modelled from the spec as a leaf with a fixed
value, like `Variable`).  `none` embeds a numpy/lookup error. -/
def stepNode (g : CGraph) (vals : List Tensor) (i : Nat) : Option (List Tensor) :=
  match g.nodes[i]? with
  | none => none
  | some nd =>
    let res : Option Tensor :=
      match nd.op with
      | .variable_ => none
      | .constant => none
      | .elemAdd => pySum (nd.children.map (getVal vals))
      | .elemMultiply =>
        match nd.children with
        | a :: b :: _ => tMul (getVal vals a) (getVal vals b)
        | _ => none
      | .scalarMultiply =>
        match nd.children with
        | a :: b :: _ => tMul (getVal vals a) (getVal vals b)
        | _ => none
      | .matVecMultiply =>
        match nd.children with
        | a :: b :: _ => matVecVal (getVal vals a) (getVal vals b)
        | _ => none
      | .negate =>
        match nd.children with
        | a :: _ => some (tNeg (getVal vals a))
        | _ => none
    match nd.op with
    | .variable_ => some vals
    | .constant => some vals
    | _ =>
      match res with
      | none => none
      | some t =>
        if t.shape.drop 1 = nd.shape then some (vals.set i t) else none

/-- `Graph.calc_values()`: run `calc_value` over the ordering in reverse
(leaves towards root). -/
def calcValuesList (g : CGraph) : List Nat → List Tensor → Option (List Tensor)
  | [], vals => some vals
  | i :: rest, vals =>
    match calcValuesList g rest vals with
    | none => none
    | some vals' => stepNode g vals' i

def calcValues (g : CGraph) (ord : List Nat) (vals : List Tensor) : Option (List Tensor) :=
  calcValuesList g ord vals

/-- `node.child_gradients(gradient)`: the local gradient contribution for
each child, in child order.  `Constant` is modelled from the spec (a leaf
contributes no child gradients, like `Variable`). -/
def childGradients (g : CGraph) (i : Nat) (grad : Tensor) (vals : List Tensor) :
    Option (List Tensor) :=
  match g.nodes[i]? with
  | none => none
  | some nd =>
    match nd.op with
    | .variable_ => some []
    | .constant => some []
    | .elemAdd => some [grad, grad]
    | .elemMultiply =>
      match nd.children with
      | a :: b :: _ =>
        match tMul grad (getVal vals b), tMul grad (getVal vals a) with
        | some l, some r => some [l, r]
        | _, _ => none
      | _ => none
    | .scalarMultiply =>
      match nd.children with
      | a :: b :: _ =>
        match dotLast grad (getVal vals b), tMul grad (getVal vals a) with
        | some l, some r => some [l, r]
        | _, _ => none
      | _ => none
    | .matVecMultiply =>
      match nd.children with
      | a :: b :: _ =>
        match outerLast grad (getVal vals b), contractLast grad (getVal vals a) with
        | some l, some r => some [l, r]
        | _, _ => none
      | _ => none
    | .negate => some [tNeg grad]

/-- The graph's `gradients` dictionary: association list keyed on node
identity (insertion appends at the front is avoided: python dicts update
in place and append new keys; we update in place and append at the end).
-/
abbrev Grads := List (Nat × Tensor)

def findGrad : Grads → Nat → Option Tensor
  | [], _ => none
  | (m, t) :: rest, n => if m = n then some t else findGrad rest n

def setGrad : Grads → Nat → Tensor → Grads
  | [], n, t => [(n, t)]
  | (m, u) :: rest, n, t =>
    if m = n then (m, t) :: rest else (m, u) :: setGrad rest n t

/-- The inner loop of `Graph.calc_gradients`: for each `(child, gradient)`
pair, initialize the child's entry to `np.zeros_like(child.value)` on
first encounter and accumulate with numpy in-place `+=`. -/
def accumChildren (vals : List Tensor) : Grads → List (Nat × Tensor) → Option Grads
  | gr, [] => some gr
  | gr, (c, t) :: rest =>
    let cur := (findGrad gr c).getD (zerosLike (getVal vals c))
    match iadd cur t with
    | none => none
    | some t' => accumChildren vals (setGrad gr c t') rest

/-- One iteration of the outer loop of `Graph.calc_gradients`: look up the
node's accumulated gradient (`KeyError` if absent), compute the child
gradients, and accumulate them pairwise with `zip(node.children, ...)`. -/
def gradStep (g : CGraph) (vals : List Tensor) (gr : Grads) (i : Nat) : Option Grads :=
  match findGrad gr i with
  | none => none
  | some gi =>
    match childGradients g i gi vals with
    | none => none
    | some cgs => accumChildren vals gr ((childrenOf g i).zip cgs)

def gradLoop (g : CGraph) (vals : List Tensor) : List Nat → Grads → Option Grads
  | [], gr => some gr
  | i :: rest, gr =>
    match gradStep g vals gr i with
    | none => none
    | some gr' => gradLoop g vals rest gr'

/-- The seed written by `calc_gradients`: `self.gradients = {self.root: 1.0}`
— the python float `1.0`, i.e. a rank-0 scalar. -/
def seedGrads (root : Nat) : Grads := [(root, ⟨[], [1]⟩)]

/-- `Graph.calc_gradients` up to and including the seeding step: re-run
forward evaluation, then reset `gradients` to `{root: 1.0}`. -/
def calcGradInit (g : CGraph) (root : Nat) (ord : List Nat) (vals : List Tensor) :
    Option (List Tensor × Grads) :=
  match calcValues g ord vals with
  | none => none
  | some vals' => some (vals', seedGrads root)

/-- `Graph.calc_gradients()`. -/
def calcGradients (g : CGraph) (root : Nat) (ord : List Nat) (vals : List Tensor) :
    Option (List Tensor × Grads) :=
  match calcGradInit g root ord vals with
  | none => none
  | some (vals', gr0) =>
    match gradLoop g vals' ord gr0 with
    | none => none
    | some gr => some (vals', gr)

/-!
## Specification-side notions and derived predicates

These definitions state properties the spec talks about (orderings being
topological, gradients being sums over edges, reachability) in terms of
the embedded program.
-/

/-- Plain inner product of two flat data lists. -/
def innerProduct (a b : List ℤ) : ℤ := (a.zipWith (· * ·) b).sum

/-- Scale a flat data list by a rational. -/
def scaleList (q : ℤ) (a : List ℤ) : List ℤ := a.map (· * q)

/-- Modelled from the spec's words for the gradient seed: "the
multiplicative identity matching the shape of the root's value" — a
tensor of ones of the root value's shape. -/
def specRootSeed (rootValue : Tensor) : Tensor :=
  ⟨rootValue.shape, rootValue.data.map (fun _ => 1)⟩

/-- Modelled from the spec's words for the scalar child of
`ScalarMultiply`: "the inner product of the upstream gradient and the
tensor's value, reducing the tensor's dimensions to match the scalar's"
— the full inner product, shaped like the scalar child's value. -/
def specScalarChildGrad (grad v scalarValue : Tensor) : Tensor :=
  ⟨scalarValue.shape, List.replicate scalarValue.shape.prod (innerProduct grad.data v.data)⟩

/-- A list of nodes is a sound processing order for gradient
accumulation: no element is a child of itself or of any later element
(so by the time a node is processed its accumulated gradient is final),
and no element repeats.  The orderings produced by `topoSort` satisfy
this (proved below). -/
def TopoOk (g : CGraph) : List Nat → Prop
  | [] => True
  | p :: rest =>
    (∀ q, q ∈ p :: rest → p ∉ childrenOf g q) ∧ p ∉ rest ∧ TopoOk g rest

/-- The local contributions of parent `p`'s edges into node `n`, computed
from `p`'s final accumulated gradient. -/
def edgeContribs (g : CGraph) (vals : List Tensor) (grFinal : Grads) (p n : Nat) :
    Option (List Tensor) :=
  match findGrad grFinal p with
  | none => none
  | some gp =>
    match childGradients g p gp vals with
    | none => none
    | some cgs => some ((((childrenOf g p).zip cgs).filter (fun e => e.1 = n)).map (·.2))

/-- Accumulate a list of contributions with numpy in-place `+=`. -/
def iaddFold (ts : List Tensor) (acc : Option Tensor) : Option Tensor :=
  ts.foldl (fun acc' t =>
    match acc' with
    | none => none
    | some a' => iadd a' t) acc

/-- Fold the edge contributions of the parents listed in `l` into an
accumulator. -/
def contribFold (g : CGraph) (vals : List Tensor) (grFinal : Grads) (n : Nat)
    (l : List Nat) (acc : Option Tensor) : Option Tensor :=
  l.foldl (fun acc' p =>
    match acc' with
    | none => none
    | some a =>
      match edgeContribs g vals grFinal p n with
      | none => none
      | some ts => iaddFold ts (some a)) acc

/-- The sum, over every edge on which `n` is a child (parents taken in
ordering order, edge occurrences in child-list order), of that edge's
local contribution, accumulated exactly as `calc_gradients` accumulates:
starting from `np.zeros_like(n.value)` with numpy in-place `+=`. -/
def sumContribs (g : CGraph) (vals : List Tensor) (grFinal : Grads) (ord : List Nat)
    (n : Nat) : Option Tensor :=
  contribFold g vals grFinal n ord (some (zerosLike (getVal vals n)))

/-- A constructed node's child count matches its operation (true of every
node the `node.py` constructors can build): leaves have no children,
binary operations two, `Negate` one. -/
def NodeWF (nd : GNode) : Prop :=
  (nd.op = .variable_ ∨ nd.op = .constant → nd.children = []) ∧
  (nd.op = .negate → nd.children.length = 1) ∧
  (nd.op = .elemAdd ∨ nd.op = .elemMultiply ∨ nd.op = .scalarMultiply ∨
      nd.op = .matVecMultiply → nd.children.length = 2)

/-- Every node of the graph is well-formed. -/
def GraphWF (g : CGraph) : Prop := ∀ nd ∈ g.nodes, NodeWF nd

instance (nd : GNode) : Decidable (NodeWF nd) := by
  unfold NodeWF
  infer_instance

instance (g : CGraph) : Decidable (GraphWF g) := by
  unfold GraphWF
  infer_instance

/-- One step of child-reachability closure. -/
def reachStep (g : CGraph) (s : List Nat) : List Nat :=
  (s ++ s.flatMap (childrenOf g)).dedup

/-- Fuelled reachability closure: the nodes reachable from the start set
along child edges within `fuel` steps. -/
def reachFuel (g : CGraph) : Nat → List Nat → List Nat
  | 0, s => s
  | fuel + 1, s => reachFuel g fuel (reachStep g s)

/-!
## Concrete graphs used by witnesses and counterexamples
-/

/-- `x + x`: node 0 is the shared variable, node 1 the root `ElemAdd`
with `x` on both edges. -/
def exXX : CGraph :=
  ⟨[⟨[], .variable_, [1], ⟨[1, 1], [5]⟩⟩,
    ⟨[0, 0], .elemAdd, [1], constTensor [1, 1] 0⟩]⟩

/-- A diamond: root 0 adds two negations (1 and 2) of the shared leaf 3. -/
def exDiamond : CGraph :=
  ⟨[⟨[1, 2], .elemAdd, [1], constTensor [1, 1] 0⟩,
    ⟨[3], .negate, [1], constTensor [1, 1] 0⟩,
    ⟨[3], .negate, [1], constTensor [1, 1] 0⟩,
    ⟨[], .variable_, [1], ⟨[1, 1], [7]⟩⟩]⟩

/-- Two chained expressions sharing nodes: the graph rooted at 0 reaches
1 and 2, but 1 also has the outside parent 3 and 2 the outside parent 4
(both built separately and not reachable from 0); 5 is a leaf under 2. -/
def exShared : CGraph :=
  ⟨[⟨[1], .negate, [1], constTensor [1, 1] 0⟩,
    ⟨[2], .negate, [1], constTensor [1, 1] 0⟩,
    ⟨[5], .negate, [1], constTensor [1, 1] 0⟩,
    ⟨[1], .negate, [1], constTensor [1, 1] 0⟩,
    ⟨[2], .negate, [1], constTensor [1, 1] 0⟩,
    ⟨[], .variable_, [1], ⟨[1, 1], [7]⟩⟩]⟩

/-- The `ScalarMultiply` graph with scalar child value `s` and vector
child value `vd` (length `n`); node 2 is the product. -/
def smGraph (n : Nat) (s : ℤ) (vd : List ℤ) : CGraph :=
  ⟨[⟨[], .variable_, [1], ⟨[1, 1], [s]⟩⟩,
    ⟨[], .variable_, [n], ⟨[1, n], vd⟩⟩,
    ⟨[0, 1], .scalarMultiply, [n], constTensor [1, n] 0⟩]⟩

/-- A `ScalarMultiply` whose tensor child is a 2×2 matrix. -/
def exSMMat : CGraph :=
  ⟨[⟨[], .variable_, [1], ⟨[1, 1], [2]⟩⟩,
    ⟨[], .variable_, [2, 2], ⟨[1, 2, 2], [1, 2, 3, 4]⟩⟩,
    ⟨[0, 1], .scalarMultiply, [2, 2], constTensor [1, 2, 2] 0⟩]⟩

/-- A single vector-shaped variable (shape `(2,)`). -/
def exVec : CGraph := ⟨[⟨[], .variable_, [2], ⟨[1, 2], [1, 2]⟩⟩]⟩

/-- A single scalar-shaped variable (shape `()`). -/
def exScalarVar : CGraph := ⟨[⟨[], .variable_, [], ⟨[1], [2]⟩⟩]⟩

/-- A node of declared shape `()` (as built by `Variable(np.array(3.0))`,
whose value is the rank-0 array). -/
def exRank0Node : GNode := ⟨[], .variable_, [], ⟨[], [3]⟩⟩

/-- Two variables of shapes `(3,)` and `(4,)`. -/
def exMismatch : CGraph :=
  ⟨[⟨[], .variable_, [3], ⟨[1, 3], [1, 2, 3]⟩⟩,
    ⟨[], .variable_, [4], ⟨[1, 4], [1, 2, 3, 4]⟩⟩]⟩

/-- `v + v` over two scalar-shaped variables: used to evaluate an
`ElemAdd` value. -/
def exAdd : CGraph :=
  ⟨[⟨[], .variable_, [1], ⟨[1, 1], [3]⟩⟩,
    ⟨[], .variable_, [1], ⟨[1, 1], [4]⟩⟩,
    ⟨[0, 1], .elemAdd, [1], constTensor [1, 1] 0⟩]⟩

/-- The two variables under `exAdd`, before the `ElemAdd` is built. -/
def exAddBase : CGraph :=
  ⟨[⟨[], .variable_, [1], ⟨[1, 1], [3]⟩⟩,
    ⟨[], .variable_, [1], ⟨[1, 1], [4]⟩⟩]⟩

/-- Result of `exScalarVar + 3` (wrapping in a `Constant`). -/
def exAddRes : CGraph :=
  ⟨[⟨[], .variable_, [], ⟨[1], [2]⟩⟩,
    ⟨[], .constant, [], ⟨[1], [3]⟩⟩,
    ⟨[0, 1], .elemAdd, [], ⟨[1], [0]⟩⟩]⟩

/-- Result of `exScalarVar - 3` (wrapping in a `Constant`, then negating). -/
def exSubRes : CGraph :=
  ⟨[⟨[], .variable_, [], ⟨[1], [2]⟩⟩,
    ⟨[], .constant, [], ⟨[1], [3]⟩⟩,
    ⟨[1], .negate, [], ⟨[1], [0]⟩⟩,
    ⟨[0, 2], .elemAdd, [], ⟨[1], [0]⟩⟩]⟩

/-- Result of `exScalarVar * 3` (wrapping in a `Variable`). -/
def exMulRes : CGraph :=
  ⟨[⟨[], .variable_, [], ⟨[1], [2]⟩⟩,
    ⟨[], .variable_, [], ⟨[1], [3]⟩⟩,
    ⟨[0, 1], .elemMultiply, [], ⟨[1], [0]⟩⟩]⟩

/-- The raw value `calc_value` computes for node `i` from its children's
current values (before the `__setattr__` assignment); `none` for leaves
and failures. -/
def calcRaw (g : CGraph) (vals : List Tensor) (i : Nat) : Option Tensor :=
  match g.nodes[i]? with
  | none => none
  | some nd =>
    match nd.op with
    | .variable_ => none
    | .constant => none
    | .elemAdd => pySum (nd.children.map (getVal vals))
    | .elemMultiply =>
      match nd.children with
      | a :: b :: _ => tMul (getVal vals a) (getVal vals b)
      | _ => none
    | .scalarMultiply =>
      match nd.children with
      | a :: b :: _ => tMul (getVal vals a) (getVal vals b)
      | _ => none
    | .matVecMultiply =>
      match nd.children with
      | a :: b :: _ => matVecVal (getVal vals a) (getVal vals b)
      | _ => none
    | .negate =>
      match nd.children with
      | a :: _ => some (tNeg (getVal vals a))
      | _ => none

/-- The invariant of Kahn's loop in `_create_topological_ordering`,
relating the stack `S`, the ordering built so far and the recorded
`removed_edges` pairs: the popped and queued nodes are pairwise distinct;
every recorded pair `(child, parent)` is a real child relationship whose
parent has been popped; a node already placed in the ordering has all of
its unique registered parents placed earlier; a queued node (other than
the root) has all of its unique parents placed; a node (other than the
root, and with at least one parent) has been queued or placed exactly
when all of its unique parents have been recorded; and everything queued
or placed is the root or has a parent. -/
def KInv (g : CGraph) (root : Nat) (S ord : List Nat) (edges : List (Nat × Nat)) : Prop :=
  (ord ++ S).Nodup ∧
  (∀ c p, (c, p) ∈ edges → p ∈ ord ∧ c ∈ childrenOf g p) ∧
  edges.Nodup ∧
  (∀ j (hj : j < ord.length), ∀ p, p ∈ uniqueParents g (ord.get ⟨j, hj⟩) → p ∈ ord.take j) ∧
  (∀ c, c ∈ S → c = root ∨ ∀ p ∈ uniqueParents g c, p ∈ ord) ∧
  (∀ c, c ≠ root → uniqueParents g c ≠ [] →
    ((c ∈ ord ∨ c ∈ S) ↔ (edgeParents edges c).length = (uniqueParents g c).length)) ∧
  (∀ c, c ∈ ord ++ S → c = root ∨ uniqueParents g c ≠ [])

/-!
## Theorems
-/

/-- C6: constructing a binary elementwise operation over operands of
structurally incompatible shapes fails immediately at construction time
with a ShapeMismatch error (so nothing is deferred to evaluation: no node
is created at all). -/
theorem elemwise_ctor_shape_mismatch (g : CGraph) (l r : Nat)
    (h : shapeOf g l ≠ shapeOf g r) :
    mkElemAdd g l r = .error .shapeMismatch ∧
    mkElemMultiply g l r = .error .shapeMismatch := by
  constructor <;> simp [mkElemAdd, mkElemMultiply, h]

theorem elemwise_ctor_shape_mismatch_witness :
    shapeOf exMismatch 0 = [3] ∧ shapeOf exMismatch 1 = [4] ∧
    mkElemAdd exMismatch 0 1 = .error .shapeMismatch ∧
    mkElemMultiply exMismatch 0 1 = .error .shapeMismatch := by
  refine ⟨by decide, by decide, ?_, ?_⟩
  · exact (elemwise_ctor_shape_mismatch exMismatch 0 1 (by decide)).1
  · exact (elemwise_ctor_shape_mismatch exMismatch 0 1 (by decide)).2

/-- C5 (counterexample): assigning the rank-0 tensor `⟨[], [5]⟩` to a node
of declared shape `()` succeeds — `value.shape[1:] = () = self.shape` —
yet the stored value's shape is not of the form `(batch, *shape)` for any
batch size, refuting "once set a node's value always has shape
`(batch, *shape)`". -/
theorem setValue_rank0_escape :
    setValue exRank0Node ⟨[], [5]⟩ = .ok { exRank0Node with value := ⟨[], [5]⟩ } ∧
    (∀ b : Nat, (⟨[], [5]⟩ : Tensor).shape ≠ b :: exRank0Node.shape) := by
  refine ⟨rfl, ?_⟩
  intro b
  simp [exRank0Node]

/-- C5 (amended): an assignment to `value` succeeds exactly when the
assigned tensor's shape minus its first dimension equals the node's
declared shape, and fails with a ShapeMismatch error otherwise (never
coercing); consequently every successfully stored value that has at least
one dimension has shape `(batch, *shape)`. -/
theorem setValue_shape_check (nd : GNode) (v : Tensor) :
    (v.shape.drop 1 = nd.shape →
      setValue nd v = .ok { nd with value := v } ∧
      (v.shape ≠ [] → v.shape = v.shape.headD 0 :: nd.shape)) ∧
    (v.shape.drop 1 ≠ nd.shape → setValue nd v = .error .shapeMismatch) := by
  constructor
  · intro h
    refine ⟨by simp only [setValue]; rw [if_pos h], ?_⟩
    intro hne
    rcases hv : v.shape with _ | ⟨b, rest⟩
    · exact absurd hv hne
    · rw [hv] at h
      simp at h
      simp [h]
  · intro h
    simp only [setValue]
    rw [if_neg h]

theorem setValue_shape_check_witness :
    setValue exRank0Node ⟨[7, 2], [1, 2, 3, 4, 5, 6, 7, 8, 9, 10, 11, 12, 13, 14]⟩ =
      .error .shapeMismatch ∧
    setValue ⟨[], .variable_, [2], constTensor [1, 2] 0⟩ ⟨[1, 2], [3, 4]⟩ =
      .ok ⟨[], .variable_, [2], ⟨[1, 2], [3, 4]⟩⟩ ∧
    ([1, 2] : List Nat) = ([1, 2] : List Nat).headD 0 :: [2] := by
  refine ⟨?_, ?_, by decide⟩
  · exact (setValue_shape_check exRank0Node _).2 (by decide)
  · exact ((setValue_shape_check ⟨[], .variable_, [2], constTensor [1, 2] 0⟩ _).1 (by decide)).1

/-- C9 (counterexample): immediately after construction — before any
forward evaluation — an `ElemAdd` node's value is the zeros tensor
`np.zeros((1, *shape))`, not `None`/unset; forward evaluation then
replaces it with the computed sum. -/
theorem node_value_zeros_before_eval :
    mkElemAdd exAddBase 0 1 = .ok (exAdd, 2) ∧
    (exAdd.nodes[2]?).map (·.value) = some (constTensor [1, 1] 0) ∧
    topoSort exAdd 2 10 = some [2, 1, 0] ∧
    (calcValues exAdd [2, 1, 0] (initVals exAdd)).map (fun v => getVal v 2) =
      some ⟨[1, 1], [7]⟩ ∧
    constTensor [1, 1] 0 ≠ (⟨[1, 1], [7]⟩ : Tensor) := by
  exact ⟨rfl, by decide, by decide, by decide, by decide⟩

/-- C9 (amended): `Node.__init__` with no value argument initializes the
node's value to the zeros tensor of shape `(1, *shape)` (never `None`);
forward evaluation later overwrites non-leaf values. -/
theorem node_init_zeros (op : Op) (ch shape : List Nat) :
    GNode.init op ch shape .noneV = .ok ⟨ch, op, shape, constTensor (1 :: shape) 0⟩ := rfl

/-- C8 (amended): `calc_gradients` first re-runs forward evaluation and
then seeds the gradients dictionary as `{root: 1.0}` — the rank-0 scalar
constant 1 (which acts as a broadcastable multiplicative identity), not a
tensor shaped like the root's value. -/
theorem gradient_seed (g : CGraph) (root : Nat) (ord : List Nat)
    (vals0 vals1 : List Tensor) (h : calcValues g ord vals0 = some vals1) :
    calcGradInit g root ord vals0 = some (vals1, [(root, ⟨[], [1]⟩)]) := by
  simp [calcGradInit, h, seedGrads]

theorem gradient_seed_witness :
    calcGradInit exAdd 2 [2, 1, 0] (initVals exAdd) =
      some ([⟨[1, 1], [3]⟩, ⟨[1, 1], [4]⟩, ⟨[1, 1], [7]⟩], [(2, ⟨[], [1]⟩)]) := by
  exact gradient_seed exAdd 2 [2, 1, 0] (initVals exAdd) _ (by decide)

/-- C8 (counterexample): for a root whose value has shape `(1, 2)`, the
seed recorded for the root is the rank-0 scalar `1.0`, which is not the
multiplicative identity matching the shape of the root's value (the ones
tensor of shape `(1, 2)`). -/
theorem gradient_seed_not_shape_matched :
    calcGradInit exVec 0 [0] (initVals exVec) =
      some (initVals exVec, [(0, ⟨[], [1]⟩)]) ∧
    findGrad [(0, (⟨[], [1]⟩ : Tensor))] 0 = some ⟨[], [1]⟩ ∧
    (⟨[], [1]⟩ : Tensor) ≠ specRootSeed (getVal (initVals exVec) 0) ∧
    (⟨[], [1]⟩ : Tensor).shape ≠ (getVal (initVals exVec) 0).shape := by
  decide

/-- C10: in `exShared`, node 2 is reachable from root 0 but has the
registered parent 4 that is not reachable from 0; the topological
ordering from 0 omits node 2 entirely (a child is appended only once all
of its unique registered parents have been popped), forward evaluation
therefore never recomputes node 2's value (although a `calc_value` call
on it would), and gradient accumulation records no gradient entry for it.
-/
theorem shared_parent_omitted_node :
    topoSort exShared 0 10 = some [0] ∧
    2 ∈ reachFuel exShared 5 [0] ∧
    4 ∉ reachFuel exShared 5 [0] ∧
    4 ∈ uniqueParents exShared 2 ∧
    (2 : Nat) ∉ ([0] : List Nat) ∧
    (calcValues exShared [0] (initVals exShared)).map (fun v => getVal v 2) =
      some (constTensor [1, 1] 0) ∧
    (stepNode exShared (initVals exShared) 2).map (fun v => getVal v 2) =
      some ⟨[1, 1], [-7]⟩ ∧
    (calcGradients exShared 0 [0] (initVals exShared)).map (fun p => findGrad p.2 2) =
      some none := by
  decide

/-- C7 (counterexample): multiplying the vector-shaped node of `exVec` by
the plain scalar `3` wraps the scalar in a `Variable` node (index 1 of
the resulting graph), not in a `Constant` node. -/
theorem mul_wraps_variable_not_constant :
    (nodeMulOp exVec 0 (.scalar 3)).toOption.map (fun p => opOf p.1 1) =
      some .variable_ ∧
    Op.variable_ ≠ Op.constant := by
  decide

theorem getElem_len_append (l m : List GNode) (c : GNode) :
    (l ++ c :: m)[l.length]? = some c := by
  rw [List.getElem?_append_right (le_refl _)]
  simp

theorem mkElemAdd_ok_nodes {g : CGraph} {l r : Nat} {p : CGraph × Nat}
    (h : mkElemAdd g l r = .ok p) : ∃ nd, p.1.nodes = g.nodes ++ [nd] := by
  unfold mkElemAdd at h
  split at h
  · exact absurd h (by simp)
  · injection h with h2
    subst h2
    exact ⟨_, rfl⟩

theorem mkElemMultiply_ok_nodes {g : CGraph} {l r : Nat} {p : CGraph × Nat}
    (h : mkElemMultiply g l r = .ok p) : ∃ nd, p.1.nodes = g.nodes ++ [nd] := by
  unfold mkElemMultiply at h
  split at h
  · exact absurd h (by simp)
  · injection h with h2
    subst h2
    exact ⟨_, rfl⟩

theorem mkScalarMultiply_ok_nodes {g : CGraph} {l r : Nat} {p : CGraph × Nat}
    (h : mkScalarMultiply g l r = .ok p) : ∃ nd, p.1.nodes = g.nodes ++ [nd] := by
  unfold mkScalarMultiply at h
  split at h
  · exact absurd h (by simp)
  · injection h with h2
    subst h2
    exact ⟨_, rfl⟩

theorem mkMatVecMultiply_ok_nodes {g : CGraph} {l r : Nat} {p : CGraph × Nat}
    (h : mkMatVecMultiply g l r = .ok p) : ∃ nd, p.1.nodes = g.nodes ++ [nd] := by
  unfold mkMatVecMultiply at h
  split at h
  · exact absurd h (by simp)
  · injection h with h2
    subst h2
    exact ⟨_, rfl⟩

theorem mulDispatch_ok_nodes {g : CGraph} {i j : Nat} {p : CGraph × Nat}
    (h : mulDispatch g i j = .ok p) : ∃ nd, p.1.nodes = g.nodes ++ [nd] := by
  unfold mulDispatch at h
  split_ifs at h
  · exact mkElemMultiply_ok_nodes h
  · exact mkScalarMultiply_ok_nodes h
  · exact mkScalarMultiply_ok_nodes h
  · exact mkMatVecMultiply_ok_nodes h

/-- C7 (amended): composing a node with a plain numeric value through the
operator surface wraps the value in a `Constant` node for addition and
subtraction, but in a `Variable` node (built from `np.array([value])`)
for multiplication; in all cases the wrapped leaf is appended before the
composite node is constructed. -/
theorem operator_wrapping (g : CGraph) (i : Nat) (q : ℤ) (g' : CGraph) (k : Nat) :
    (nodeAddOp g i (.scalar q) = .ok (g', k) →
      g'.nodes[g.nodes.length]? = some ⟨[], .constant, [], ⟨[1], [q]⟩⟩) ∧
    (nodeSubOp g i (.scalar q) = .ok (g', k) →
      g'.nodes[g.nodes.length]? = some ⟨[], .constant, [], ⟨[1], [q]⟩⟩) ∧
    (nodeMulOp g i (.scalar q) = .ok (g', k) →
      g'.nodes[g.nodes.length]? = some ⟨[], .variable_, [], ⟨[1], [q]⟩⟩) := by
  refine ⟨?_, ?_, ?_⟩
  · intro h
    obtain ⟨nd, hnd⟩ := mkElemAdd_ok_nodes (p := (g', k)) h
    rw [show g'.nodes = _ from hnd]
    simp only [mkConstantScalar, CGraph.push, List.append_assoc]
    exact getElem_len_append _ _ _
  · intro h
    obtain ⟨nd, hnd⟩ := mkElemAdd_ok_nodes (p := (g', k)) h
    rw [show g'.nodes = _ from hnd]
    simp only [mkConstantScalar, mkNegate, CGraph.push, List.append_assoc]
    exact getElem_len_append _ _ _
  · intro h
    obtain ⟨nd, hnd⟩ := mulDispatch_ok_nodes (p := (g', k)) h
    rw [show g'.nodes = _ from hnd]
    simp only [mkVariable, CGraph.push, List.append_assoc]
    exact getElem_len_append _ _ _

theorem operator_wrapping_witness :
    nodeAddOp exScalarVar 0 (.scalar 3) = .ok (exAddRes, 2) ∧
    exAddRes.nodes[1]? = some ⟨[], .constant, [], ⟨[1], [3]⟩⟩ ∧
    nodeSubOp exScalarVar 0 (.scalar 3) = .ok (exSubRes, 3) ∧
    exSubRes.nodes[1]? = some ⟨[], .constant, [], ⟨[1], [3]⟩⟩ ∧
    nodeMulOp exScalarVar 0 (.scalar 3) = .ok (exMulRes, 2) ∧
    exMulRes.nodes[1]? = some ⟨[], .variable_, [], ⟨[1], [3]⟩⟩ := by
  refine ⟨rfl, ?_, rfl, ?_, rfl, ?_⟩
  · exact (operator_wrapping exScalarVar 0 3 exAddRes 2).1 rfl
  · exact (operator_wrapping exScalarVar 0 3 exSubRes 3).2.1 rfl
  · exact (operator_wrapping exScalarVar 0 3 exMulRes 2).2.2 rfl

theorem indicesOf_single (n : Nat) : indicesOf [n] = (List.range n).map (fun i => [i]) := by
  show (List.range n).flatMap (fun i => (indicesOf []).map (i :: ·)) = _
  simp only [indicesOf, List.map_cons, List.map_nil]
  exact (List.map_eq_flatMap _ _).symm

theorem read_clamp (l : List ℤ) (n j : Nat) (hj : j < n) :
    (l[if n = 1 then 0 else j]?).getD 0 = (l[j]?).getD 0 := by
  rcases eq_or_ne n 1 with h | h
  · have hj0 : j = 0 := by omega
    subst hj0
    simp [h]
  · simp [h]

theorem sum_range_mul : ∀ (n : Nat) (a b : List ℤ), a.length = n → b.length = n →
    ((List.range n).map (fun j => (a[j]?).getD 0 * (b[j]?).getD 0)).sum = innerProduct a b := by
  intro n
  induction n with
  | zero =>
    intro a b ha hb
    rw [List.length_eq_zero.mp ha]
    simp [innerProduct]
  | succ m ih =>
    intro a b ha hb
    rcases a with _ | ⟨x, a'⟩
    · simp at ha
    rcases b with _ | ⟨y, b'⟩
    · simp at hb
    rw [List.range_succ_eq_map]
    have heq : ∀ j : Nat,
        ((((x :: a')[Nat.succ j]?).getD 0 * ((y :: b')[Nat.succ j]?).getD 0) : ℤ) =
          ((a'[j]?).getD 0 * (b'[j]?).getD 0) := by
      intro j
      rw [show Nat.succ j = j + 1 from rfl]
      rw [List.getElem?_cons_succ, List.getElem?_cons_succ]
    simp only [List.map_cons, List.map_map, List.sum_cons]
    have hm := List.map_congr_left (l := List.range m)
      (f := (fun j => ((x :: a')[j]?).getD 0 * ((y :: b')[j]?).getD 0) ∘ Nat.succ)
      (g := fun j => ((a'[j]?).getD 0 * ((b'[j]?).getD 0) : ℤ))
      (fun j _ => heq j)
    rw [hm]
    rw [ih a' b' (by simpa using ha) (by simpa using hb)]
    simp [innerProduct]

theorem map_range_scale (c : ℤ) : ∀ (n : Nat) (a : List ℤ), a.length = n →
    (List.range n).map (fun j => (a[j]?).getD 0 * c) = a.map (· * c) := by
  intro n
  induction n with
  | zero =>
    intro a ha
    rw [List.length_eq_zero.mp ha]
    simp
  | succ m ih =>
    intro a ha
    rcases a with _ | ⟨x, a'⟩
    · simp at ha
    rw [List.range_succ_eq_map]
    simp only [List.map_cons, List.map_map]
    have heq : ∀ j : Nat, ((((x :: a')[Nat.succ j]?).getD 0 * c) : ℤ) = ((a'[j]?).getD 0 * c) := by
      intro j
      rw [show Nat.succ j = j + 1 from rfl]
      rw [List.getElem?_cons_succ]
    have hm := List.map_congr_left (l := List.range m)
      (f := (fun j => ((x :: a')[j]?).getD 0 * c) ∘ Nat.succ)
      (g := fun j => (((a'[j]?).getD 0 * c) : ℤ))
      (fun j _ => heq j)
    rw [hm]
    rw [ih a' (by simpa using ha)]
    simp

theorem tRead_one_n (l : List ℤ) (n j : Nat) (hj : j < n) :
    tRead ⟨[1, n], l⟩ [0, j] = (l[j]?).getD 0 := by
  show (l[flatIndex [1, n] (alignIdx [1, n] [0, j])]?).getD 0 = _
  have ha : alignIdx [1, n] [0, j] = [0, if n = 1 then 0 else j] := by
    simp [alignIdx]
  rw [ha]
  have hf : flatIndex [1, n] [0, if n = 1 then 0 else j] = if n = 1 then 0 else j := by
    simp [flatIndex]
  rw [hf]
  exact read_clamp l n j hj

theorem tRead_scalar (s : ℤ) (j : Nat) : tRead ⟨[1, 1], [s]⟩ [0, j] = s := by
  show ((([s] : List ℤ)[flatIndex [1, 1] (alignIdx [1, 1] [0, j])]?).getD 0) = s
  have ha : alignIdx [1, 1] [0, j] = [0, 0] := by
    simp [alignIdx]
  rw [ha]
  rfl

theorem dotLast_one_n (n : Nat) (gd vd : List ℤ) (hg : gd.length = n) (hv : vd.length = n) :
    dotLast ⟨[1, n], gd⟩ ⟨[1, n], vd⟩ = some ⟨[1], [innerProduct gd vd]⟩ := by
  have h1 : dotLast ⟨[1, n], gd⟩ ⟨[1, n], vd⟩ =
      (bshape [1] [1]).map (fun p =>
        ⟨p, (indicesOf p).map (fun idx =>
          ((List.range n).map (fun j =>
            tRead ⟨[1, n], gd⟩ (idx ++ [j]) * tRead ⟨[1, n], vd⟩ (idx ++ [j]))).sum)⟩) := by
    unfold dotLast
    simp
  rw [h1]
  show some (⟨[1], (indicesOf [1]).map (fun idx => ((List.range n).map (fun j =>
      tRead ⟨[1, n], gd⟩ (idx ++ [j]) * tRead ⟨[1, n], vd⟩ (idx ++ [j]))).sum)⟩ : Tensor) =
    some ⟨[1], [innerProduct gd vd]⟩
  have h3 : (indicesOf [1]).map (fun idx => ((List.range n).map (fun j =>
      tRead ⟨[1, n], gd⟩ (idx ++ [j]) * tRead ⟨[1, n], vd⟩ (idx ++ [j]))).sum) =
      [((List.range n).map (fun j =>
        tRead ⟨[1, n], gd⟩ ([0] ++ [j]) * tRead ⟨[1, n], vd⟩ ([0] ++ [j]))).sum] := rfl
  rw [h3]
  have h4 : (List.range n).map (fun j =>
      tRead ⟨[1, n], gd⟩ ([0] ++ [j]) * tRead ⟨[1, n], vd⟩ ([0] ++ [j])) =
      (List.range n).map (fun j => (gd[j]?).getD 0 * (vd[j]?).getD 0) := by
    refine List.map_congr_left ?_
    intro j hj
    rw [show ([0] ++ [j] : List Nat) = [0, j] from rfl,
      tRead_one_n gd n j (List.mem_range.mp hj),
      tRead_one_n vd n j (List.mem_range.mp hj)]
  rw [h4, sum_range_mul n gd vd hg hv]

example : True := trivial

theorem bshape_one_n (n : Nat) : bshape [1, n] [1, 1] = some [1, n] := by
  rcases eq_or_ne n 1 with h | h
  · subst h
    rfl
  · simp [bshape, bshapeRev, h]

theorem indicesOf_one_n (n : Nat) : indicesOf [1, n] = (List.range n).map (fun i => [0, i]) := by
  show (List.range 1).flatMap (fun i => (indicesOf [n]).map (i :: ·)) = _
  rw [indicesOf_single]
  show ([0] : List Nat).flatMap (fun i => ((List.range n).map (fun i => [i])).map (i :: ·)) = _
  simp [List.map_map]

theorem tMul_one_n (n : Nat) (sq : ℤ) (gd : List ℤ) (hg : gd.length = n) :
    tMul ⟨[1, n], gd⟩ ⟨[1, 1], [sq]⟩ = some ⟨[1, n], scaleList sq gd⟩ := by
  unfold tMul ewise
  rw [bshape_one_n]
  show some (⟨[1, n], (indicesOf [1, n]).map (fun idx =>
      tRead ⟨[1, n], gd⟩ idx * tRead ⟨[1, 1], [sq]⟩ idx)⟩ : Tensor) = _
  rw [indicesOf_one_n, List.map_map]
  have hm := List.map_congr_left (l := List.range n)
    (f := (fun idx => tRead ⟨[1, n], gd⟩ idx * tRead ⟨[1, 1], [sq]⟩ idx) ∘ fun i => [0, i])
    (g := fun j => ((gd[j]?).getD 0 * sq : ℤ))
    (fun j hj => by
      show tRead ⟨[1, n], gd⟩ [0, j] * tRead ⟨[1, 1], [sq]⟩ [0, j] = _
      rw [tRead_one_n gd n j (List.mem_range.mp hj), tRead_scalar])
  rw [hm, map_range_scale sq n gd hg]
  rfl

/-- C3 (amended): for a `ScalarMultiply` node with children
(scalar, tensor), `child_gradients` contracts the upstream gradient with
the tensor child's value over the last axis only (`einsum('...j,...j->...')`)
for the scalar child, and scales the upstream gradient by the scalar
child's value (broadcast) for the tensor child.  When the tensor child is
a vector of length `n` and the upstream gradient has the same shape, the
scalar child's gradient is therefore the full inner product (6 for scalar
3, vector `[1,2,3]`, upstream `[1,1,1]` — see the witness), but for a
higher-rank tensor child it is not reduced to the scalar's shape (see the
counterexample). -/
theorem scalar_multiply_grad_vector (n : Nat) (sq : ℤ) (vd gd : List ℤ)
    (hv : vd.length = n) (hg : gd.length = n) :
    childGradients (smGraph n sq vd) 2 ⟨[1, n], gd⟩ (initVals (smGraph n sq vd)) =
      some [⟨[1], [innerProduct gd vd]⟩, ⟨[1, n], scaleList sq gd⟩] := by
  have hred : childGradients (smGraph n sq vd) 2 ⟨[1, n], gd⟩ (initVals (smGraph n sq vd)) =
      (match dotLast ⟨[1, n], gd⟩ ⟨[1, n], vd⟩, tMul ⟨[1, n], gd⟩ ⟨[1, 1], [sq]⟩ with
        | some l, some r => some [l, r]
        | _, _ => none) := rfl
  rw [hred, dotLast_one_n n gd vd hg hv, tMul_one_n n sq gd hg]

theorem scalar_multiply_grad_vector_witness :
    childGradients (smGraph 3 3 [1, 2, 3]) 2 ⟨[1, 3], [1, 1, 1]⟩
      (initVals (smGraph 3 3 [1, 2, 3])) =
      some [⟨[1], [6]⟩, ⟨[1, 3], [3, 3, 3]⟩] ∧
    innerProduct [1, 1, 1] [1, 2, 3] = 6 := by
  constructor
  · rw [scalar_multiply_grad_vector 3 3 [1, 2, 3] [1, 1, 1] (by decide) (by decide)]
    decide
  · decide

/-- C3 (counterexample): for a `ScalarMultiply` whose tensor child is the
2×2 matrix `[[1,2],[3,4]]` (scalar child value 2) and upstream gradient
of ones, the scalar child's computed gradient is `[[3, 7]]` — the
contraction over the last axis only — not the full inner product `10`
reduced to the scalar child's shape `(1, 1)`. -/
theorem scalar_multiply_grad_matrix :
    childGradients exSMMat 2 ⟨[1, 2, 2], [1, 1, 1, 1]⟩ (initVals exSMMat) =
      some [⟨[1, 2], [3, 7]⟩, ⟨[1, 2, 2], [2, 2, 2, 2]⟩] ∧
    (⟨[1, 2], [3, 7]⟩ : Tensor) ≠
      specScalarChildGrad ⟨[1, 2, 2], [1, 1, 1, 1]⟩ (getVal (initVals exSMMat) 1)
        (getVal (initVals exSMMat) 0) ∧
    (⟨[1, 2], [3, 7]⟩ : Tensor).shape ≠ (getVal (initVals exSMMat) 0).shape := by
  decide

theorem mem_addEdge {edges : List (Nat × Nat)} {c p : Nat} {x : Nat × Nat} :
    x ∈ addEdge edges c p ↔ (x = (c, p) ∨ x ∈ edges) := by
  unfold addEdge
  split
  · constructor
    · exact fun h => Or.inr h
    · rintro (rfl | h) <;> assumption
  · simp [or_comm]

theorem addEdge_nodup {edges : List (Nat × Nat)} {c p : Nat} (h : edges.Nodup) :
    (addEdge edges c p).Nodup := by
  unfold addEdge
  split
  · exact h
  · exact List.Nodup.cons (by assumption) h

theorem mem_edgeParents {edges : List (Nat × Nat)} {c p : Nat} :
    p ∈ edgeParents edges c ↔ (c, p) ∈ edges := by
  unfold edgeParents
  simp only [List.mem_map, List.mem_filter]
  constructor
  · rintro ⟨⟨c', p'⟩, ⟨hmem, hc⟩, hp⟩
    simp only [decide_eq_true_eq] at hc
    simp only at hp
    subst hc
    subst hp
    exact hmem
  · intro h
    exact ⟨(c, p), ⟨h, by simp⟩, rfl⟩

theorem edgeParents_addEdge_other {edges : List (Nat × Nat)} {c p c' : Nat} (h : c' ≠ c) :
    edgeParents (addEdge edges c p) c' = edgeParents edges c' := by
  unfold addEdge
  split
  · rfl
  · unfold edgeParents
    simp [List.filter_cons, h.symm]

theorem edgeParents_addEdge_self {edges : List (Nat × Nat)} {c p : Nat}
    (h : (c, p) ∉ edges) :
    edgeParents (addEdge edges c p) c = p :: edgeParents edges c := by
  unfold addEdge
  split
  · exact absurd (by assumption) h
  · unfold edgeParents
    simp [List.filter_cons]

theorem edgeParents_nodup {edges : List (Nat × Nat)} {c : Nat} (h : edges.Nodup) :
    (edgeParents edges c).Nodup := by
  unfold edgeParents
  refine List.Nodup.map_on ?_ (h.filter _)
  rintro ⟨c1, p1⟩ h1 ⟨c2, p2⟩ h2 hp
  simp only [List.mem_filter, decide_eq_true_eq] at h1 h2
  simp only at hp
  simp [h1.2, h2.2, hp]

theorem mem_uniqueParents {g : CGraph} {c p : Nat} :
    p ∈ uniqueParents g c ↔ (p < g.nodes.length ∧ c ∈ childrenOf g p) := by
  unfold uniqueParents
  simp [List.mem_filter, List.mem_range]

theorem lt_length_of_mem_childrenOf {g : CGraph} {c q : Nat} (h : c ∈ childrenOf g q) :
    q < g.nodes.length := by
  by_contra hq
  have : g.nodes[q]? = none := List.getElem?_eq_none (by omega)
  unfold childrenOf at h
  rw [this] at h
  simp at h

theorem uniqueParents_nodup (g : CGraph) (c : Nat) : (uniqueParents g c).Nodup :=
  (List.nodup_range _).filter _

theorem edgeParents_subset {g : CGraph} {ord : List Nat} {edges : List (Nat × Nat)}
    (hedges : ∀ c p, (c, p) ∈ edges → p ∈ ord ∧ c ∈ childrenOf g p) (c : Nat) :
    ∀ p ∈ edgeParents edges c, p ∈ uniqueParents g c := by
  intro p hp
  obtain ⟨_, h2⟩ := hedges c p (mem_edgeParents.mp hp)
  exact mem_uniqueParents.mpr ⟨lt_length_of_mem_childrenOf h2, h2⟩

theorem full_count_mem {g : CGraph} {edges : List (Nat × Nat)} {c : Nat}
    (hnd : edges.Nodup)
    (hsub : ∀ p ∈ edgeParents edges c, p ∈ uniqueParents g c)
    (hlen : (edgeParents edges c).length = (uniqueParents g c).length) :
    ∀ p ∈ uniqueParents g c, p ∈ edgeParents edges c := by
  intro p hp
  have h1 : (edgeParents edges c).toFinset ⊆ (uniqueParents g c).toFinset := by
    intro x hx
    rw [List.mem_toFinset] at *
    exact hsub x hx
  have hc1 : (edgeParents edges c).toFinset.card = (edgeParents edges c).length :=
    List.toFinset_card_of_nodup (edgeParents_nodup hnd)
  have hc2 : (uniqueParents g c).toFinset.card = (uniqueParents g c).length :=
    List.toFinset_card_of_nodup (uniqueParents_nodup g c)
  have heq := Finset.eq_of_subset_of_card_le h1 (by omega)
  rw [← List.mem_toFinset, ← heq, List.mem_toFinset] at hp
  exact hp

theorem processChildren_inv (g : CGraph) (root n : Nat) (ord : List Nat)
    (hroot : uniqueParents g root = []) :
    ∀ (cs S1 : List Nat) (edges1 : List (Nat × Nat)),
    (∀ c ∈ cs, c ∈ childrenOf g n) →
    cs.Nodup →
    (∀ c ∈ cs, (c, n) ∉ edges1) →
    KInv g root S1 (ord ++ [n]) edges1 →
    KInv g root (processChildren g n cs (S1, edges1)).1 (ord ++ [n])
      (processChildren g n cs (S1, edges1)).2 := by
  intro cs
  induction cs with
  | nil =>
    intro S1 edges1 _ _ _ hinv
    exact hinv
  | cons c cs ih =>
    intro S1 edges1 hch hnd hnew hinv
    obtain ⟨hKnd, hKe, hKend, hKpar, hKS, hKcnt, hKmem⟩ := hinv
    have hcchild : c ∈ childrenOf g n := hch c (List.mem_cons_self c cs)
    have hcnew : (c, n) ∉ edges1 := hnew c (List.mem_cons_self c cs)
    have hnlt : n < g.nodes.length := lt_length_of_mem_childrenOf hcchild
    have hnpar : n ∈ uniqueParents g c := mem_uniqueParents.mpr ⟨hnlt, hcchild⟩
    have hcroot : c ≠ root := by
      rintro rfl
      rw [hroot] at hnpar
      exact absurd hnpar (List.not_mem_nil n)
    have hcne : uniqueParents g c ≠ [] := fun h => by
      rw [h] at hnpar
      exact absurd hnpar (List.not_mem_nil n)
    -- the edge (c, n) is genuinely new, so c is not yet queued or ordered
    have hcout : c ∉ ord ++ [n] ∧ c ∉ S1 := by
      by_contra hmem
      have hmem' : c ∈ ord ++ [n] ∨ c ∈ S1 := by tauto
      have hfull := (hKcnt c hcroot hcne).mp hmem'
      have := full_count_mem hKend (edgeParents_subset (fun a b h => hKe a b h) c) hfull n hnpar
      exact hcnew (mem_edgeParents.mp this)
    -- effect of the set-insertion on the recorded parents of c
    have hEp : edgeParents (addEdge edges1 c n) c = n :: edgeParents edges1 c :=
      edgeParents_addEdge_self hcnew
    have hKe' : ∀ a b, (a, b) ∈ addEdge edges1 c n → b ∈ ord ++ [n] ∧ a ∈ childrenOf g b := by
      intro a b hab
      rcases mem_addEdge.mp hab with h | h
      · rw [(Prod.mk.inj h).1, (Prod.mk.inj h).2]
        exact ⟨by simp, hcchild⟩
      · obtain ⟨h1, h2⟩ := hKe a b h
        exact ⟨h1, h2⟩
    have hKend' : (addEdge edges1 c n).Nodup := addEdge_nodup hKend
    have hnewtail : ∀ c' ∈ cs, (c', n) ∉ addEdge edges1 c n := by
      intro c' hc' habs
      rcases mem_addEdge.mp habs with h | h
      · have : c' = c := by
          have := Prod.mk.inj h
          exact this.1
        exact absurd (this ▸ hc') (List.Nodup.not_mem hnd)
      · exact hnew c' (List.mem_cons_of_mem c hc') h
    show KInv g root (processChildren g n (c :: cs) (S1, edges1)).1 (ord ++ [n])
      (processChildren g n (c :: cs) (S1, edges1)).2
    rw [show processChildren g n (c :: cs) (S1, edges1) =
      processChildren g n cs
        (if (edgeParents (addEdge edges1 c n) c).length = (uniqueParents g c).length
          then c :: S1 else S1, addEdge edges1 c n) from rfl]
    by_cases hfull : (edgeParents (addEdge edges1 c n) c).length = (uniqueParents g c).length
    · rw [if_pos hfull]
      refine ih (c :: S1) (addEdge edges1 c n) (fun a ha => hch a (List.mem_cons_of_mem c ha))
        hnd.of_cons hnewtail ?_
      refine ⟨?_, hKe', hKend', hKpar, ?_, ?_, ?_⟩
      · -- nodup with c inserted into the stack
        rw [List.nodup_middle]
        refine List.nodup_cons.mpr ⟨?_, hKnd⟩
        intro hmem
        rcases List.mem_append.mp hmem with h | h
        · exact hcout.1 h
        · exact hcout.2 h
      · -- queued nodes have all parents ordered
        intro a ha
        rcases List.mem_cons.mp ha with rfl | ha'
        · right
          intro p hp
          have hmem := full_count_mem hKend' (edgeParents_subset hKe' a) hfull p hp
          exact (hKe' a p (mem_edgeParents.mp hmem)).1
        · exact hKS a ha'
      · -- counting invariant
        intro a haroot hane
        by_cases hac : a = c
        · subst hac
          constructor
          · intro _
            exact hfull
          · intro _
            right
            exact List.mem_cons_self a S1
        · rw [edgeParents_addEdge_other hac]
          constructor
          · intro hmem
            refine (hKcnt a haroot hane).mp ?_
            rcases hmem with h | h
            · exact Or.inl h
            · rcases List.mem_cons.mp h with rfl | h'
              · exact absurd rfl hac
              · exact Or.inr h'
          · intro hlen
            rcases (hKcnt a haroot hane).mpr hlen with h | h
            · exact Or.inl h
            · exact Or.inr (List.mem_cons_of_mem c h)
      · -- membership justification
        intro a ha
        rcases List.mem_append.mp ha with h | h
        · exact hKmem a (List.mem_append_left _ h)
        · rcases List.mem_cons.mp h with rfl | h'
          · right
            exact hcne
          · exact hKmem a (List.mem_append_right _ h')
    · rw [if_neg hfull]
      refine ih S1 (addEdge edges1 c n) (fun a ha => hch a (List.mem_cons_of_mem c ha))
        hnd.of_cons hnewtail ?_
      refine ⟨hKnd, hKe', hKend', hKpar, hKS, ?_, hKmem⟩
      intro a haroot hane
      by_cases hac : a = c
      · subst hac
        constructor
        · intro hmem
          exact absurd hmem (by tauto)
        · intro hlen
          exact absurd hlen hfull
      · rw [edgeParents_addEdge_other hac]
        exact hKcnt a haroot hane

theorem topoStep_inv (g : CGraph) (root n : Nat) (S ord : List Nat)
    (edges : List (Nat × Nat)) (hroot : uniqueParents g root = [])
    (hinv : KInv g root (n :: S) ord edges) :
    KInv g root (processChildren g n (childrenOf g n).dedup (S, edges)).1 (ord ++ [n])
      (processChildren g n (childrenOf g n).dedup (S, edges)).2 := by
  obtain ⟨hKnd, hKe, hKend, hKpar, hKS, hKcnt, hKmem⟩ := hinv
  have hnord : n ∉ ord := by
    intro h
    exact List.disjoint_of_nodup_append hKnd h (List.mem_cons_self n S)
  apply processChildren_inv g root n ord hroot
  · intro c hc
    exact List.mem_dedup.mp hc
  · exact List.nodup_dedup _
  · intro c _ habs
    exact hnord (hKe c n habs).1
  · refine ⟨?_, ?_, hKend, ?_, ?_, ?_, ?_⟩
    · rw [List.append_assoc]
      exact hKnd
    · intro c p h
      obtain ⟨h1, h2⟩ := hKe c p h
      exact ⟨List.mem_append_left _ h1, h2⟩
    · intro j hj p hp
      rcases Nat.lt_or_ge j ord.length with hlt | hge
      · rw [List.get_append j hlt] at hp
        rw [List.take_append_of_le_length (le_of_lt hlt)]
        exact hKpar j hlt p hp
      · have hj' : j = ord.length := by
          have hlen := hj
          simp only [List.length_append, List.length_cons, List.length_nil] at hlen
          omega
        subst hj'
        rw [List.get_of_append rfl rfl] at hp
        rcases hKS n (List.mem_cons_self n S) with hr | hpar
        · rw [hr, hroot] at hp
          cases hp
        · rw [List.take_append_of_le_length (le_refl _), List.take_length]
          exact hpar p hp
    · intro c hc
      rcases hKS c (List.mem_cons_of_mem n hc) with h | h
      · exact Or.inl h
      · exact Or.inr (fun p hp => List.mem_append_left _ (h p hp))
    · intro c hcroot hcne
      have hiff : (c ∈ ord ++ [n] ∨ c ∈ S) ↔ (c ∈ ord ∨ c ∈ n :: S) := by
        simp only [List.mem_append, List.mem_cons, List.mem_singleton]
        tauto
      rw [hiff]
      exact hKcnt c hcroot hcne
    · intro c hc
      apply hKmem
      simp only [List.mem_append, List.mem_cons, List.mem_singleton] at *
      tauto

theorem topoLoop_inv (g : CGraph) (root : Nat) (hroot : uniqueParents g root = []) :
    ∀ (fuel : Nat) (S ord : List Nat) (edges : List (Nat × Nat)) (result : List Nat),
    KInv g root S ord edges →
    topoLoop g fuel S ord edges = some result →
    (∃ edges', KInv g root [] result edges') ∧ ord <+: result := by
  intro fuel
  induction fuel with
  | zero =>
    intro S ord edges result hinv hrun
    cases S with
    | nil =>
      unfold topoLoop at hrun
      injection hrun with hres
      subst hres
      exact ⟨⟨edges, hinv⟩, List.prefix_refl _⟩
    | cons n S =>
      unfold topoLoop at hrun
      cases hrun
  | succ fuel ih =>
    intro S ord edges result hinv hrun
    cases S with
    | nil =>
      unfold topoLoop at hrun
      injection hrun with hres
      subst hres
      exact ⟨⟨edges, hinv⟩, List.prefix_refl _⟩
    | cons n S =>
      rw [show topoLoop g (fuel + 1) (n :: S) ord edges =
        topoLoop g fuel (processChildren g n (childrenOf g n).dedup (S, edges)).1
          (ord ++ [n]) (processChildren g n (childrenOf g n).dedup (S, edges)).2 from rfl]
          at hrun
      have hstep := topoStep_inv g root n S ord edges hroot hinv
      obtain ⟨hfin, hpre⟩ := ih _ _ _ _ hstep hrun
      exact ⟨hfin, List.IsPrefix.trans ⟨[n], rfl⟩ hpre⟩

/-- C2: for every graph whose root has no registered parents, a
successful `topoSort` run yields an ordering that starts with the root,
repeats no node, and places every node after all of its unique registered
parents (hence reversing it is a valid leaves-to-root order: no node
appears before a node that depends on it). -/
theorem topo_ordering_sound (g : CGraph) (root fuel : Nat) (ord : List Nat)
    (hroot : uniqueParents g root = [])
    (h : topoSort g root fuel = some ord) :
    ord.head? = some root ∧ ord.Nodup ∧
    (∀ j (hj : j < ord.length), ∀ p ∈ uniqueParents g (ord.get ⟨j, hj⟩), p ∈ ord.take j) := by
  have hinit : KInv g root [root] [] [] := by
    refine ⟨by simp, by simp, by simp, by simp, ?_, ?_, ?_⟩
    · intro c hc
      rcases List.mem_singleton.mp hc with rfl
      exact Or.inl rfl
    · intro c hcroot hcne
      constructor
      · intro hmem
        rcases hmem with hmem | hmem
        · exact absurd hmem (List.not_mem_nil c)
        · exact absurd (List.mem_singleton.mp hmem) hcroot
      · intro hlen
        exfalso
        have : edgeParents [] c = [] := rfl
        rw [this] at hlen
        exact hcne (List.eq_nil_of_length_eq_zero hlen.symm)
    · intro c hc
      simp only [List.nil_append, List.mem_singleton] at hc
      exact Or.inl hc
  obtain ⟨⟨edges', hfin⟩, _⟩ := topoLoop_inv g root hroot fuel [root] [] [] ord hinit h
  obtain ⟨hnd, _, _, hpar, _, _, _⟩ := hfin
  refine ⟨?_, by simpa using hnd, fun j hj p hp => hpar j hj p hp⟩
  -- the ordering starts with the root: unfold the first iteration
  cases fuel with
  | zero =>
    unfold topoSort topoLoop at h
    cases h
  | succ fuel =>
    have hstep := topoStep_inv g root root [] [] [] hroot hinit
    have h' : topoLoop g fuel (processChildren g root (childrenOf g root).dedup ([], [])).1
        ([root]) (processChildren g root (childrenOf g root).dedup ([], [])).2 = some ord := h
    obtain ⟨_, hpre⟩ := topoLoop_inv g root hroot fuel _ _ _ ord hstep h'
    obtain ⟨tail, htail⟩ := hpre
    rw [← htail]
    rfl

theorem topo_ordering_sound_witness :
    uniqueParents exDiamond 0 = [] ∧
    topoSort exDiamond 0 10 = some [0, 2, 1, 3] ∧
    ([0, 2, 1, 3] : List Nat).head? = some 0 ∧
    ([0, 2, 1, 3] : List Nat).Nodup ∧
    (∀ j (hj : j < ([0, 2, 1, 3] : List Nat).length),
      ∀ p ∈ uniqueParents exDiamond (([0, 2, 1, 3] : List Nat).get ⟨j, hj⟩),
        p ∈ ([0, 2, 1, 3] : List Nat).take j) := by
  have h := topo_ordering_sound exDiamond 0 10 [0, 2, 1, 3] (by decide) (by decide)
  exact ⟨by decide, by decide, h.1, h.2.1, h.2.2⟩

theorem mem_take_get {l : List Nat} {i p : Nat} (h : p ∈ l.take i) :
    ∃ k, ∃ (hk : k < l.length), k < i ∧ l.get ⟨k, hk⟩ = p := by
  obtain ⟨⟨k, hk⟩, hget⟩ := List.mem_iff_get.mp h
  have hkl : k < l.length := by
    have := hk
    simp [List.length_take] at this
    omega
  refine ⟨k, hkl, ?_, ?_⟩
  · have := hk
    simp [List.length_take] at this
    omega
  · rw [← hget]
    simp [List.get_eq_getElem, List.getElem_take]

theorem topoOk_of_positional (g : CGraph) :
    ∀ (l : List Nat), l.Nodup →
    (∀ i j (hi : i < l.length) (hj : j < l.length), i ≤ j →
      l.get ⟨i, hi⟩ ∉ childrenOf g (l.get ⟨j, hj⟩)) →
    TopoOk g l := by
  intro l
  induction l with
  | nil =>
    intro _ _
    trivial
  | cons x xs ihl =>
    intro hnd hF
    refine ⟨?_, (List.nodup_cons.mp hnd).1, ?_⟩
    · intro q hq habs
      obtain ⟨⟨j, hj⟩, rfl⟩ := List.mem_iff_get.mp hq
      exact hF 0 j (by simp) hj (Nat.zero_le j) habs
    · apply ihl (List.nodup_cons.mp hnd).2
      intro i j hi hj hij
      have h := hF (i + 1) (j + 1) (by simpa using Nat.succ_lt_succ hi)
        (by simpa using Nat.succ_lt_succ hj) (Nat.succ_le_succ hij)
      simpa using h

/-- The orderings produced by `topoSort` are sound processing orders for
the gradient and value passes. -/
theorem topoSort_topoOk (g : CGraph) (root fuel : Nat) (ord : List Nat)
    (hroot : uniqueParents g root = [])
    (h : topoSort g root fuel = some ord) : TopoOk g ord := by
  obtain ⟨_, hnd, hpar⟩ := topo_ordering_sound g root fuel ord hroot h
  apply topoOk_of_positional g ord hnd
  intro i j hi hj hij habs
  have hjpar : ord.get ⟨j, hj⟩ ∈ uniqueParents g (ord.get ⟨i, hi⟩) :=
    mem_uniqueParents.mpr ⟨lt_length_of_mem_childrenOf habs, habs⟩
  obtain ⟨k, hk, hki, hkeq⟩ := mem_take_get (hpar i hi _ hjpar)
  have : (⟨k, hk⟩ : Fin ord.length) = ⟨j, hj⟩ := (List.Nodup.get_inj_iff hnd).mp hkeq
  have hkj : k = j := by
    injection this
  omega

theorem stepNode_eq (g : CGraph) (vals : List Tensor) (i : Nat) :
    stepNode g vals i =
      match g.nodes[i]? with
      | none => none
      | some nd =>
        match nd.op with
        | .variable_ => some vals
        | .constant => some vals
        | _ =>
          match calcRaw g vals i with
          | none => none
          | some t => if t.shape.drop 1 = nd.shape then some (vals.set i t) else none := by
  unfold stepNode calcRaw
  cases h : g.nodes[i]? with
  | none => rfl
  | some nd => cases nd.op <;> rfl

theorem calcRaw_congr (g : CGraph) (v1 v2 : List Tensor) (i : Nat)
    (h : ∀ c ∈ childrenOf g i, getVal v1 c = getVal v2 c) :
    calcRaw g v1 i = calcRaw g v2 i := by
  unfold calcRaw
  cases hnd : g.nodes[i]? with
  | none => rfl
  | some nd =>
    have hch : childrenOf g i = nd.children := by
      unfold childrenOf
      rw [hnd]
      rfl
    rw [hch] at h
    obtain ⟨ch, op, shape, value⟩ := nd
    simp only at h
    cases op
    case variable_ => rfl
    case constant => rfl
    case elemAdd =>
      show pySum (ch.map (getVal v1)) = pySum (ch.map (getVal v2))
      rw [List.map_congr_left (fun c hc => h c hc)]
    case elemMultiply =>
      cases ch with
      | nil => rfl
      | cons a tl =>
        cases tl with
        | nil => rfl
        | cons b tl' =>
          show tMul (getVal v1 a) (getVal v1 b) = tMul (getVal v2 a) (getVal v2 b)
          rw [h a (List.mem_cons_self _ _), h b (List.mem_cons_of_mem _ (List.mem_cons_self _ _))]
    case scalarMultiply =>
      cases ch with
      | nil => rfl
      | cons a tl =>
        cases tl with
        | nil => rfl
        | cons b tl' =>
          show tMul (getVal v1 a) (getVal v1 b) = tMul (getVal v2 a) (getVal v2 b)
          rw [h a (List.mem_cons_self _ _), h b (List.mem_cons_of_mem _ (List.mem_cons_self _ _))]
    case matVecMultiply =>
      cases ch with
      | nil => rfl
      | cons a tl =>
        cases tl with
        | nil => rfl
        | cons b tl' =>
          show matVecVal (getVal v1 a) (getVal v1 b) = matVecVal (getVal v2 a) (getVal v2 b)
          rw [h a (List.mem_cons_self _ _), h b (List.mem_cons_of_mem _ (List.mem_cons_self _ _))]
    case negate =>
      cases ch with
      | nil => rfl
      | cons a tl =>
        show some (tNeg (getVal v1 a)) = some (tNeg (getVal v2 a))
        rw [h a (List.mem_cons_self _ _)]

theorem getVal_set_ne {vals : List Tensor} {i j : Nat} {t : Tensor} (h : i ≠ j) :
    getVal (vals.set i t) j = getVal vals j := by
  unfold getVal
  rw [List.getElem?_set_ne h]

theorem stepNode_some_shape {g : CGraph} {vals res : List Tensor} {i : Nat}
    (h : stepNode g vals i = some res) : res = vals ∨ ∃ t, res = vals.set i t := by
  rw [stepNode_eq] at h
  cases hnd : g.nodes[i]? with
  | none =>
    simp only [hnd] at h
    exact Option.noConfusion h
  | some nd =>
    simp only [hnd] at h
    obtain ⟨ch, op, shape, value⟩ := nd
    cases op
    case variable_ => exact Or.inl (Option.some.inj h).symm
    case constant => exact Or.inl (Option.some.inj h).symm
    all_goals
      replace h : (match calcRaw g vals i with
        | none => none
        | some t => if List.drop 1 t.shape = shape then some (vals.set i t) else none) =
          some res := h
      cases hraw : calcRaw g vals i <;> simp only [hraw] at h
      case none => exact Option.noConfusion h
      case some t =>
        by_cases hsh : List.drop 1 t.shape = shape
        · rw [if_pos hsh] at h
          exact Or.inr ⟨t, (Option.some.inj h).symm⟩
        · rw [if_neg hsh] at h
          cases h

theorem stepNode_restep {g : CGraph} {s1 s' : List Tensor} {i : Nat}
    (hstep : stepNode g s1 i = some s') (hnotself : i ∉ childrenOf g i) :
    stepNode g s' i = some s' := by
  rw [stepNode_eq] at hstep ⊢
  cases hnd : g.nodes[i]? with
  | none =>
    simp only [hnd] at hstep
    exact Option.noConfusion hstep
  | some nd =>
    simp only [hnd] at hstep ⊢
    obtain ⟨ch, op, shape, value⟩ := nd
    cases op
    case variable_ => rfl
    case constant => rfl
    all_goals
      replace hstep : (match calcRaw g s1 i with
        | none => none
        | some t => if List.drop 1 t.shape = shape then some (s1.set i t) else none) =
          some s' := hstep
      show (match calcRaw g s' i with
        | none => none
        | some t => if List.drop 1 t.shape = shape then some (s'.set i t) else none) =
          some s'
      cases hraw : calcRaw g s1 i <;> simp only [hraw] at hstep
      case none => exact Option.noConfusion hstep
      case some t =>
        by_cases hsh : List.drop 1 t.shape = shape
        · rw [if_pos hsh] at hstep
          have h' := Option.some.inj hstep
          have hch : ∀ c ∈ childrenOf g i, getVal s' c = getVal s1 c := by
            intro c hc
            rw [← h']
            exact getVal_set_ne (fun hic => hnotself (hic ▸ hc))
          rw [calcRaw_congr g s' s1 i hch, hraw]
          simp only
          rw [if_pos hsh, ← h', List.set_set, h']
        · rw [if_neg hsh] at hstep
          cases hstep

theorem stepNode_transfer {g : CGraph} {s1 s' : List Tensor} {i : Nat}
    (hfix : stepNode g s1 i = some s1)
    (hch : ∀ c ∈ childrenOf g i, getVal s' c = getVal s1 c)
    (hset : s' = s1 ∨ ∃ p t, p ≠ i ∧ s' = s1.set p t) :
    stepNode g s' i = some s' := by
  rw [stepNode_eq] at hfix ⊢
  cases hnd : g.nodes[i]? with
  | none =>
    simp only [hnd] at hfix
    exact Option.noConfusion hfix
  | some nd =>
    simp only [hnd] at hfix ⊢
    obtain ⟨ch, op, shape, value⟩ := nd
    cases op
    case variable_ => rfl
    case constant => rfl
    all_goals
      replace hfix : (match calcRaw g s1 i with
        | none => none
        | some t => if List.drop 1 t.shape = shape then some (s1.set i t) else none) =
          some s1 := hfix
      show (match calcRaw g s' i with
        | none => none
        | some t => if List.drop 1 t.shape = shape then some (s'.set i t) else none) =
          some s'
      cases hraw : calcRaw g s1 i <;> simp only [hraw] at hfix
      case none => exact Option.noConfusion hfix
      case some t =>
        by_cases hsh : List.drop 1 t.shape = shape
        · rw [if_pos hsh] at hfix
          have h' := Option.some.inj hfix
          rw [calcRaw_congr g s' s1 i hch, hraw]
          simp only
          rw [if_pos hsh]
          rcases hset with rfl | ⟨p, tp, hpi, rfl⟩
          · rw [h']
          · rw [List.set_comm tp t s1 hpi, h']
        · rw [if_neg hsh] at hfix
          cases hfix

theorem pass_fixpoint (g : CGraph) :
    ∀ (l : List Nat) (s s' : List Tensor), TopoOk g l →
    calcValuesList g l s = some s' → ∀ i ∈ l, stepNode g s' i = some s' := by
  intro l
  induction l with
  | nil =>
    intro s s' _ _ i hi
    cases hi
  | cons p rest ih =>
    intro s s' htopo hrun i hi
    obtain ⟨hp1, hp2, hp3⟩ := htopo
    rcases h1 : calcValuesList g rest s with _ | s1
    · rw [show calcValuesList g (p :: rest) s = (match calcValuesList g rest s with
        | none => none
        | some v => stepNode g v p) from rfl, h1] at hrun
      exact Option.noConfusion hrun
    · have hrun' : stepNode g s1 p = some s' := by
        rw [show calcValuesList g (p :: rest) s = (match calcValuesList g rest s with
          | none => none
          | some v => stepNode g v p) from rfl, h1] at hrun
        exact hrun
      rcases List.mem_cons.mp hi with rfl | hirest
      · exact stepNode_restep hrun' (fun habs => hp1 i (List.mem_cons_self i rest) habs)
      · have hfix1 : stepNode g s1 i = some s1 := ih s s1 hp3 h1 i hirest
        apply stepNode_transfer hfix1
        · intro c hc
          rcases stepNode_some_shape hrun' with rfl | ⟨t, rfl⟩
          · rfl
          · refine getVal_set_ne ?_
            intro hpc
            exact hp1 i (List.mem_cons_of_mem p hirest) (hpc ▸ hc)
        · rcases stepNode_some_shape hrun' with rfl | ⟨t, ht⟩
          · exact Or.inl rfl
          · exact Or.inr ⟨p, t, (fun hpi => hp2 (hpi ▸ hirest)), ht⟩

theorem pass_of_fixpoint (g : CGraph) :
    ∀ (l : List Nat) (s : List Tensor),
    (∀ i ∈ l, stepNode g s i = some s) → calcValuesList g l s = some s := by
  intro l
  induction l with
  | nil =>
    intro s _
    rfl
  | cons p rest ih =>
    intro s hfix
    have h1 : calcValuesList g rest s = some s :=
      ih s (fun i hi => hfix i (List.mem_cons_of_mem p hi))
    show (match calcValuesList g rest s with
      | none => none
      | some v => stepNode g v p) = some s
    rw [h1]
    exact hfix p (List.mem_cons_self p rest)

/-- C4: forward evaluation over an ordering produced at Graph
construction is idempotent when no `Variable` value changes between runs:
if `calc_values` produces the value store `vals1`, running it again from
`vals1` reproduces `vals1` exactly (on every node, including reachable
nodes the ordering omits, whose values are simply never touched). -/
theorem calc_values_idempotent (g : CGraph) (root fuel : Nat) (ord : List Nat)
    (vals0 vals1 : List Tensor) (hroot : uniqueParents g root = [])
    (htopo : topoSort g root fuel = some ord)
    (hrun : calcValues g ord vals0 = some vals1) :
    calcValues g ord vals1 = some vals1 := by
  have hok := topoSort_topoOk g root fuel ord hroot htopo
  exact pass_of_fixpoint g ord vals1 (pass_fixpoint g ord vals0 vals1 hok hrun)

theorem calc_values_idempotent_witness :
    topoSort exDiamond 0 10 = some [0, 2, 1, 3] ∧
    calcValues exDiamond [0, 2, 1, 3] (initVals exDiamond) =
      some [⟨[1, 1], [-14]⟩, ⟨[1, 1], [-7]⟩, ⟨[1, 1], [-7]⟩, ⟨[1, 1], [7]⟩] ∧
    calcValues exDiamond [0, 2, 1, 3]
        [⟨[1, 1], [-14]⟩, ⟨[1, 1], [-7]⟩, ⟨[1, 1], [-7]⟩, ⟨[1, 1], [7]⟩] =
      some [⟨[1, 1], [-14]⟩, ⟨[1, 1], [-7]⟩, ⟨[1, 1], [-7]⟩, ⟨[1, 1], [7]⟩] := by
  refine ⟨by decide, by decide, ?_⟩
  exact calc_values_idempotent exDiamond 0 10 [0, 2, 1, 3] (initVals exDiamond)
    [⟨[1, 1], [-14]⟩, ⟨[1, 1], [-7]⟩, ⟨[1, 1], [-7]⟩, ⟨[1, 1], [7]⟩]
    (by decide) (by decide) (by decide)

theorem findGrad_setGrad_self (gr : Grads) (n : Nat) (t : Tensor) :
    findGrad (setGrad gr n t) n = some t := by
  induction gr with
  | nil => simp [setGrad, findGrad]
  | cons e rest ih =>
    obtain ⟨m, u⟩ := e
    by_cases h : m = n
    · subst h
      simp [setGrad, findGrad]
    · simp only [setGrad, findGrad, if_neg h]
      exact ih

theorem findGrad_setGrad_ne (gr : Grads) {n m : Nat} (t : Tensor) (h : m ≠ n) :
    findGrad (setGrad gr n t) m = findGrad gr m := by
  induction gr with
  | nil =>
    show findGrad [(n, t)] m = findGrad [] m
    show (if n = m then some t else findGrad [] m) = findGrad [] m
    rw [if_neg (Ne.symm h)]
  | cons e rest ih =>
    obtain ⟨k, u⟩ := e
    show findGrad (if k = n then (k, t) :: rest else (k, u) :: setGrad rest n t) m = _
    by_cases hk : k = n
    · rw [if_pos hk]
      show (if k = m then some t else findGrad rest m) =
        (if k = m then some u else findGrad rest m)
      have hkm : ¬ k = m := fun he => h (by rw [← he, hk])
      rw [if_neg hkm, if_neg hkm]
    · rw [if_neg hk]
      show (if k = m then some u else findGrad (setGrad rest n t) m) =
        (if k = m then some u else findGrad rest m)
      by_cases hkm : k = m
      · rw [if_pos hkm, if_pos hkm]
      · rw [if_neg hkm, if_neg hkm]
        exact ih

theorem accumChildren_untouched (vals : List Tensor) :
    ∀ (pairs : List (Nat × Tensor)) (gr gr' : Grads),
    accumChildren vals gr pairs = some gr' →
    ∀ m, (∀ e ∈ pairs, e.1 ≠ m) → findGrad gr' m = findGrad gr m := by
  intro pairs
  induction pairs with
  | nil =>
    intro gr gr' h m _
    injection h with h'
    rw [h']
  | cons e rest ih =>
    intro gr gr' h m hne
    obtain ⟨c, t⟩ := e
    replace h : (match iadd ((findGrad gr c).getD (zerosLike (getVal vals c))) t with
      | none => none
      | some t' => accumChildren vals (setGrad gr c t') rest) = some gr' := h
    cases hadd : iadd ((findGrad gr c).getD (zerosLike (getVal vals c))) t with
    | none =>
      rw [hadd] at h
      exact Option.noConfusion h
    | some t' =>
      rw [hadd] at h
      have hrest := ih (setGrad gr c t') gr' h m
        (fun e he => hne e (List.mem_cons_of_mem _ he))
      rw [hrest, findGrad_setGrad_ne _ _ (Ne.symm (hne (c, t) (List.mem_cons_self _ _)))]

theorem accumChildren_some_persist (vals : List Tensor) :
    ∀ (pairs : List (Nat × Tensor)) (gr gr' : Grads),
    accumChildren vals gr pairs = some gr' →
    ∀ m t, findGrad gr m = some t → ∃ u, findGrad gr' m = some u := by
  intro pairs
  induction pairs with
  | nil =>
    intro gr gr' h m t hm
    injection h with h'
    exact ⟨t, h' ▸ hm⟩
  | cons e rest ih =>
    intro gr gr' h m t hm
    obtain ⟨c, t0⟩ := e
    replace h : (match iadd ((findGrad gr c).getD (zerosLike (getVal vals c))) t0 with
      | none => none
      | some t' => accumChildren vals (setGrad gr c t') rest) = some gr' := h
    cases hadd : iadd ((findGrad gr c).getD (zerosLike (getVal vals c))) t0 with
    | none =>
      rw [hadd] at h
      exact Option.noConfusion h
    | some t' =>
      rw [hadd] at h
      by_cases hcm : c = m
      · subst hcm
        exact ih _ _ h c t' (findGrad_setGrad_self _ _ _)
      · refine ih _ _ h m t ?_
        rw [findGrad_setGrad_ne _ _ (fun he => hcm he.symm)]
        exact hm

theorem gradStep_untouched {g : CGraph} {vals : List Tensor} {gr gr' : Grads} {i : Nat}
    (h : gradStep g vals gr i = some gr') :
    ∀ m, m ∉ childrenOf g i → findGrad gr' m = findGrad gr m := by
  intro m hm
  unfold gradStep at h
  cases hgi : findGrad gr i with
  | none =>
    rw [hgi] at h
    exact Option.noConfusion h
  | some gi =>
    rw [hgi] at h
    replace h : (match childGradients g i gi vals with
      | none => none
      | some cgs => accumChildren vals gr ((childrenOf g i).zip cgs)) = some gr' := h
    cases hcg : childGradients g i gi vals with
    | none =>
      rw [hcg] at h
      exact Option.noConfusion h
    | some cgs =>
      rw [hcg] at h
      refine accumChildren_untouched vals _ _ _ h m ?_
      intro e he hem
      exact hm (hem ▸ (List.of_mem_zip he).1)

theorem gradStep_some_persist {g : CGraph} {vals : List Tensor} {gr gr' : Grads} {i : Nat}
    (h : gradStep g vals gr i = some gr') :
    ∀ m t, findGrad gr m = some t → ∃ u, findGrad gr' m = some u := by
  intro m t hm
  unfold gradStep at h
  cases hgi : findGrad gr i with
  | none =>
    rw [hgi] at h
    exact Option.noConfusion h
  | some gi =>
    rw [hgi] at h
    replace h : (match childGradients g i gi vals with
      | none => none
      | some cgs => accumChildren vals gr ((childrenOf g i).zip cgs)) = some gr' := h
    cases hcg : childGradients g i gi vals with
    | none =>
      rw [hcg] at h
      exact Option.noConfusion h
    | some cgs =>
      rw [hcg] at h
      exact accumChildren_some_persist vals _ _ _ h m t hm

theorem gradLoop_untouched {g : CGraph} {vals : List Tensor} :
    ∀ (l : List Nat) (gr gr' : Grads), gradLoop g vals l gr = some gr' →
    ∀ m, (∀ q ∈ l, m ∉ childrenOf g q) → findGrad gr' m = findGrad gr m := by
  intro l
  induction l with
  | nil =>
    intro gr gr' h m _
    injection h with h'
    rw [h']
  | cons p rest ih =>
    intro gr gr' h m hm
    replace h : (match gradStep g vals gr p with
      | none => none
      | some gr1 => gradLoop g vals rest gr1) = some gr' := h
    cases hstep : gradStep g vals gr p with
    | none =>
      rw [hstep] at h
      exact Option.noConfusion h
    | some gr1 =>
      rw [hstep] at h
      rw [ih gr1 gr' h m (fun q hq => hm q (List.mem_cons_of_mem _ hq))]
      exact gradStep_untouched hstep m (hm p (List.mem_cons_self _ _))

theorem gradLoop_some_persist {g : CGraph} {vals : List Tensor} :
    ∀ (l : List Nat) (gr gr' : Grads), gradLoop g vals l gr = some gr' →
    ∀ m t, findGrad gr m = some t → ∃ u, findGrad gr' m = some u := by
  intro l
  induction l with
  | nil =>
    intro gr gr' h m t hm
    injection h with h'
    exact ⟨t, h' ▸ hm⟩
  | cons p rest ih =>
    intro gr gr' h m t hm
    replace h : (match gradStep g vals gr p with
      | none => none
      | some gr1 => gradLoop g vals rest gr1) = some gr' := h
    cases hstep : gradStep g vals gr p with
    | none =>
      rw [hstep] at h
      exact Option.noConfusion h
    | some gr1 =>
      rw [hstep] at h
      obtain ⟨u, hu⟩ := gradStep_some_persist hstep m t hm
      exact ih gr1 gr' h m u hu

theorem iaddFold_cons (t : Tensor) (ts : List Tensor) (acc : Option Tensor) :
    iaddFold (t :: ts) acc =
      iaddFold ts (match acc with
        | none => none
        | some a => iadd a t) := rfl

theorem accumChildren_target (vals : List Tensor) :
    ∀ (pairs : List (Nat × Tensor)) (gr gr' : Grads) (n : Nat),
    accumChildren vals gr pairs = some gr' →
    ((pairs.filter (fun e => e.1 = n)).map (·.2)) ≠ [] →
    ∃ u, findGrad gr' n = some u ∧
      iaddFold ((pairs.filter (fun e => e.1 = n)).map (·.2))
        (some ((findGrad gr n).getD (zerosLike (getVal vals n)))) = some u := by
  intro pairs
  induction pairs with
  | nil =>
    intro gr gr' n _ hts
    exact absurd rfl hts
  | cons e rest ih =>
    intro gr gr' n h hts
    obtain ⟨c, t⟩ := e
    replace h : (match iadd ((findGrad gr c).getD (zerosLike (getVal vals c))) t with
      | none => none
      | some t' => accumChildren vals (setGrad gr c t') rest) = some gr' := h
    cases hadd : iadd ((findGrad gr c).getD (zerosLike (getVal vals c))) t with
    | none =>
      rw [hadd] at h
      exact Option.noConfusion h
    | some t' =>
      rw [hadd] at h
      by_cases hc : c = n
      · subst hc
        rw [List.filter_cons_of_pos (by simp), List.map_cons, iaddFold_cons]
        have hset : findGrad (setGrad gr c t') c = some t' := findGrad_setGrad_self _ _ _
        by_cases hrest : ((rest.filter (fun e => e.1 = c)).map (·.2)) = []
        · rw [hrest]
          refine ⟨t', ?_, ?_⟩
          · rw [accumChildren_untouched vals rest _ _ h c ?_, hset]
            intro e he hec
            have hmemf : e ∈ rest.filter (fun e => e.1 = c) :=
              List.mem_filter.mpr ⟨he, by simp [hec]⟩
            rw [List.map_eq_nil.mp hrest] at hmemf
            exact absurd hmemf (List.not_mem_nil e)
          · show iadd ((findGrad gr c).getD (zerosLike (getVal vals c))) t = some t'
            exact hadd
        · obtain ⟨u, hu1, hu2⟩ := ih (setGrad gr c t') gr' c h hrest
          refine ⟨u, hu1, ?_⟩
          show iaddFold ((rest.filter (fun e => e.1 = c)).map (·.2))
            (iadd ((findGrad gr c).getD (zerosLike (getVal vals c))) t) = some u
          rw [hadd, hset] at *
          exact hu2
      · rw [List.filter_cons_of_neg (by simp [hc])]
        rw [List.filter_cons_of_neg (by simp [hc])] at hts
        have hrw : findGrad (setGrad gr c t') n = findGrad gr n :=
          findGrad_setGrad_ne _ _ (fun he => hc he.symm)
        obtain ⟨u, hu1, hu2⟩ := ih (setGrad gr c t') gr' n h hts
        rw [hrw] at hu2
        exact ⟨u, hu1, hu2⟩

theorem childGradients_length {g : CGraph} {vals : List Tensor} {p : Nat} {gp : Tensor}
    {cgs : List Tensor} (hwf : GraphWF g)
    (h : childGradients g p gp vals = some cgs) :
    cgs.length = (childrenOf g p).length := by
  unfold childGradients at h
  cases hnd : g.nodes[p]? with
  | none =>
    rw [hnd] at h
    exact Option.noConfusion h
  | some nd =>
    have hmem : nd ∈ g.nodes := by
      obtain ⟨hlt, hval⟩ := List.getElem?_eq_some.mp hnd
      exact hval ▸ List.getElem_mem hlt
    have hwfnd := hwf nd hmem
    have hch : childrenOf g p = nd.children := by
      unfold childrenOf
      rw [hnd]
      rfl
    simp only [hnd] at h
    rw [hch]
    obtain ⟨ch, op, shape, value⟩ := nd
    obtain ⟨hleaf, hneg, hbin⟩ := hwfnd
    simp only at hleaf hneg hbin ⊢
    cases op
    case variable_ =>
      injection h with h'
      rw [← h', hleaf (Or.inl rfl)]
      rfl
    case constant =>
      injection h with h'
      rw [← h', hleaf (Or.inr rfl)]
      rfl
    case elemAdd =>
      rw [hbin (Or.inl rfl)]
      injection h with h'
      rw [← h']
      rfl
    case negate =>
      rw [hneg rfl]
      injection h with h'
      rw [← h']
      rfl
    case elemMultiply =>
      rw [hbin (by simp)]
      cases ch with
      | nil => exact Option.noConfusion h
      | cons a tl =>
        cases tl with
        | nil => exact Option.noConfusion h
        | cons b tl' =>
          replace h : (match tMul gp (getVal vals b), tMul gp (getVal vals a) with
            | some l, some r => some [l, r]
            | _, _ => none) = some cgs := h
          cases h1 : tMul gp (getVal vals b) <;> rw [h1] at h
          case none => exact Option.noConfusion h
          case some l =>
            cases h2 : tMul gp (getVal vals a) <;> rw [h2] at h
            case none => exact Option.noConfusion h
            case some r =>
              injection h with h'
              rw [← h']
              rfl
    case scalarMultiply =>
      rw [hbin (by simp)]
      cases ch with
      | nil => exact Option.noConfusion h
      | cons a tl =>
        cases tl with
        | nil => exact Option.noConfusion h
        | cons b tl' =>
          replace h : (match dotLast gp (getVal vals b), tMul gp (getVal vals a) with
            | some l, some r => some [l, r]
            | _, _ => none) = some cgs := h
          cases h1 : dotLast gp (getVal vals b) <;> rw [h1] at h
          case none => exact Option.noConfusion h
          case some l =>
            cases h2 : tMul gp (getVal vals a) <;> rw [h2] at h
            case none => exact Option.noConfusion h
            case some r =>
              injection h with h'
              rw [← h']
              rfl
    case matVecMultiply =>
      rw [hbin (by simp)]
      cases ch with
      | nil => exact Option.noConfusion h
      | cons a tl =>
        cases tl with
        | nil => exact Option.noConfusion h
        | cons b tl' =>
          replace h : (match outerLast gp (getVal vals b), contractLast gp (getVal vals a) with
            | some l, some r => some [l, r]
            | _, _ => none) = some cgs := h
          cases h1 : outerLast gp (getVal vals b) <;> rw [h1] at h
          case none => exact Option.noConfusion h
          case some l =>
            cases h2 : contractLast gp (getVal vals a) <;> rw [h2] at h
            case none => exact Option.noConfusion h
            case some r =>
              injection h with h'
              rw [← h']
              rfl

theorem zip_filter_nil {l1 : List Nat} {l2 : List Tensor} {n : Nat} (hn : n ∉ l1) :
    (((l1.zip l2).filter (fun e => e.1 = n)).map (·.2)) = [] := by
  rw [List.filter_eq_nil_iff.mpr, List.map_nil]
  intro e he
  simp only [decide_eq_true_eq]
  intro hee
  exact hn (hee ▸ (List.of_mem_zip he).1)

theorem zip_filter_ne_nil {l1 : List Nat} {l2 : List Tensor} {n : Nat}
    (hlen : l2.length = l1.length) (hn : n ∈ l1) :
    (((l1.zip l2).filter (fun e => e.1 = n)).map (·.2)) ≠ [] := by
  obtain ⟨⟨i, hi⟩, hget⟩ := List.mem_iff_get.mp hn
  have hi2 : i < l2.length := by omega
  have hzl : i < (l1.zip l2).length := by
    rw [List.length_zip]
    omega
  have hzget : (l1.zip l2)[i] = (l1[i], l2[i]) := List.getElem_zip
  have hz : (l1[i], l2[i]) ∈ l1.zip l2 := by
    rw [← hzget]
    exact List.getElem_mem hzl
  intro habs
  have hmemf : (l1[i], l2[i]) ∈ (l1.zip l2).filter (fun e => e.1 = n) := by
    refine List.mem_filter.mpr ⟨hz, ?_⟩
    simp only [decide_eq_true_eq]
    rw [← hget]
    rfl
  rw [List.map_eq_nil.mp habs] at hmemf
  exact absurd hmemf (List.not_mem_nil _)

theorem gradLoop_contribs (g : CGraph) (vals : List Tensor) (n : Nat) (hwf : GraphWF g) :
    ∀ (l : List Nat) (gr grF : Grads) (a : Tensor),
    gradLoop g vals l gr = some grF →
    TopoOk g l →
    (findGrad gr n = some a ∨ (findGrad gr n = none ∧ a = zerosLike (getVal vals n))) →
    ((∀ q ∈ l, n ∉ childrenOf g q) →
      findGrad grF n = findGrad gr n ∧ contribFold g vals grF n l (some a) = some a) ∧
    ((∃ q ∈ l, n ∈ childrenOf g q) →
      contribFold g vals grF n l (some a) = findGrad grF n) := by
  intro l
  induction l with
  | nil =>
    intro gr grF a hrun _ _
    injection hrun with h'
    subst h'
    exact ⟨fun _ => ⟨rfl, rfl⟩, fun ⟨q, hq, _⟩ => absurd hq (List.not_mem_nil q)⟩
  | cons p rest ih =>
    intro gr grF a hrun htopo hstart
    obtain ⟨hp1, hp2, hp3⟩ := htopo
    replace hrun : (match gradStep g vals gr p with
      | none => none
      | some gr1 => gradLoop g vals rest gr1) = some grF := hrun
    cases hstep : gradStep g vals gr p with
    | none =>
      rw [hstep] at hrun
      exact Option.noConfusion hrun
    | some gr1 =>
      rw [hstep] at hrun
      have hstep' := hstep
      unfold gradStep at hstep'
      cases hgp : findGrad gr p with
      | none =>
        rw [hgp] at hstep'
        exact Option.noConfusion hstep'
      | some gp =>
        rw [hgp] at hstep'
        replace hstep' : (match childGradients g p gp vals with
          | none => none
          | some cgs => accumChildren vals gr ((childrenOf g p).zip cgs)) = some gr1 := hstep'
        cases hcg : childGradients g p gp vals with
        | none =>
          rw [hcg] at hstep'
          exact Option.noConfusion hstep'
        | some cgs =>
          rw [hcg] at hstep'
          have hfz1 : findGrad gr1 p = findGrad gr p :=
            gradStep_untouched hstep p (hp1 p (List.mem_cons_self p rest))
          have hfzF : findGrad grF p = findGrad gr1 p :=
            gradLoop_untouched rest gr1 grF hrun p
              (fun q hq => hp1 q (List.mem_cons_of_mem p hq))
          have hgpF : findGrad grF p = some gp := by rw [hfzF, hfz1, hgp]
          have hedge : edgeContribs g vals grF p n =
              some ((((childrenOf g p).zip cgs).filter (fun e => e.1 = n)).map (·.2)) := by
            unfold edgeContribs
            rw [hgpF]
            show (match childGradients g p gp vals with
              | none => none
              | some cgs2 => some ((((childrenOf g p).zip cgs2).filter
                  (fun e => e.1 = n)).map (·.2))) =
              some ((((childrenOf g p).zip cgs).filter (fun e => e.1 = n)).map (·.2))
            rw [hcg]
          have hfoldcons : ∀ acc : Tensor, contribFold g vals grF n (p :: rest) (some acc) =
              contribFold g vals grF n rest
                (iaddFold ((((childrenOf g p).zip cgs).filter (fun e => e.1 = n)).map (·.2))
                  (some acc)) := by
            intro acc
            show contribFold g vals grF n rest
              (match edgeContribs g vals grF p n with
                | none => none
                | some ts => iaddFold ts (some acc)) = _
            rw [hedge]
          have ha0 : (findGrad gr n).getD (zerosLike (getVal vals n)) = a := by
            rcases hstart with h | ⟨h1, h2⟩
            · rw [h]
              rfl
            · rw [h1, h2]
              rfl
          by_cases hnp : n ∈ childrenOf g p
          · have hlen : cgs.length = (childrenOf g p).length := childGradients_length hwf hcg
            have hts : (((childrenOf g p).zip cgs).filter (fun e => e.1 = n)).map (·.2) ≠ [] :=
              zip_filter_ne_nil hlen hnp
            obtain ⟨a1, ha1, hfold1⟩ := accumChildren_target vals _ gr gr1 n hstep' hts
            rw [ha0] at hfold1
            have ihr := ih gr1 grF a1 hrun hp3 (Or.inl ha1)
            constructor
            · intro hnone
              exact absurd hnp (hnone p (List.mem_cons_self p rest))
            · intro _
              rw [hfoldcons a, hfold1]
              by_cases hrp : ∃ q ∈ rest, n ∈ childrenOf g q
              · exact ihr.2 hrp
              · push_neg at hrp
                obtain ⟨hA1, hA2⟩ := ihr.1 hrp
                rw [hA2, hA1, ha1]
          · have hts0 : (((childrenOf g p).zip cgs).filter (fun e => e.1 = n)).map (·.2) = [] :=
              zip_filter_nil hnp
            have hgr1 : findGrad gr1 n = findGrad gr n := gradStep_untouched hstep n hnp
            have hstart1 : findGrad gr1 n = some a ∨
                (findGrad gr1 n = none ∧ a = zerosLike (getVal vals n)) := by
              rw [hgr1]
              exact hstart
            have ihr := ih gr1 grF a hrun hp3 hstart1
            constructor
            · intro hnone
              obtain ⟨hA1, hA2⟩ := ihr.1 (fun q hq => hnone q (List.mem_cons_of_mem p hq))
              refine ⟨by rw [hA1, hgr1], ?_⟩
              rw [hfoldcons a, hts0]
              exact hA2
            · rintro ⟨q, hq, hqc⟩
              rcases List.mem_cons.mp hq with rfl | hq'
              · exact absurd hqc hnp
              · rw [hfoldcons a, hts0]
                exact ihr.2 ⟨q, hq', hqc⟩

/-- C1: for any node `n` (other than the root) that appears as a child on
edges of the graph, with all of its registered parents contained in the
ordering, the gradient `calc_gradients` records for `n` equals the sum —
accumulated exactly as the code accumulates, from `np.zeros_like` with
`+=` — of the local contribution of every edge on which `n` is a child
(each parent's contribution computed from that parent's final accumulated
gradient, duplicate edges from one parent counted once per occurrence).
In particular, for a node used twice as input to one parent (`x + x`),
the accumulated gradient is twice the single-edge contribution (see the
witness). -/
theorem gradient_accumulates_all_edges (g : CGraph) (root fuel n : Nat)
    (ord : List Nat) (vals0 vals1 : List Tensor) (grF : Grads)
    (hroot : uniqueParents g root = []) (hwf : GraphWF g)
    (htopo : topoSort g root fuel = some ord) (hn : n ≠ root)
    (hpar : ∃ p ∈ ord, n ∈ childrenOf g p)
    (hallpar : ∀ p ∈ uniqueParents g n, p ∈ ord)
    (hrun : calcGradients g root ord vals0 = some (vals1, grF)) :
    findGrad grF n = sumContribs g vals1 grF ord n := by
  have _ := hallpar
  unfold calcGradients at hrun
  cases hinit : calcGradInit g root ord vals0 with
  | none =>
    rw [hinit] at hrun
    exact Option.noConfusion hrun
  | some p0 =>
    obtain ⟨vals', gr0⟩ := p0
    rw [hinit] at hrun
    replace hrun : (match gradLoop g vals' ord gr0 with
      | none => none
      | some gr => some (vals', gr)) = some (vals1, grF) := hrun
    cases hloop : gradLoop g vals' ord gr0 with
    | none =>
      rw [hloop] at hrun
      exact Option.noConfusion hrun
    | some grX =>
      rw [hloop] at hrun
      injection hrun with hpair
      have hv : vals' = vals1 := (Prod.mk.inj hpair).1
      have hg : grX = grF := (Prod.mk.inj hpair).2
      subst hv
      subst hg
      unfold calcGradInit at hinit
      cases hcv : calcValues g ord vals0 with
      | none =>
        rw [hcv] at hinit
        exact Option.noConfusion hinit
      | some vY =>
        rw [hcv] at hinit
        injection hinit with hpair0
        have hv0 : vY = vals' := (Prod.mk.inj hpair0).1
        have hg0 : seedGrads root = gr0 := (Prod.mk.inj hpair0).2
        have hseed : findGrad gr0 n = none := by
          rw [← hg0]
          show (if root = n then some (⟨[], [1]⟩ : Tensor) else findGrad [] n) = none
          rw [if_neg (Ne.symm hn)]
          rfl
        have htopoOk := topoSort_topoOk g root fuel ord hroot htopo
        have hmain := (gradLoop_contribs g vals' n hwf ord gr0 grX
          (zerosLike (getVal vals' n)) hloop htopoOk (Or.inr ⟨hseed, rfl⟩)).2 hpar
        exact hmain.symm

theorem gradient_accumulates_all_edges_witness :
    calcGradients exXX 1 [1, 0] (initVals exXX) =
      some ([⟨[1, 1], [5]⟩, ⟨[1, 1], [10]⟩],
        [(1, ⟨[], [1]⟩), (0, ⟨[1, 1], [2]⟩)]) ∧
    findGrad [(1, (⟨[], [1]⟩ : Tensor)), (0, ⟨[1, 1], [2]⟩)] 0 = some ⟨[1, 1], [2]⟩ ∧
    edgeContribs exXX [⟨[1, 1], [5]⟩, ⟨[1, 1], [10]⟩]
        [(1, ⟨[], [1]⟩), (0, ⟨[1, 1], [2]⟩)] 1 0 =
      some [⟨[], [1]⟩, ⟨[], [1]⟩] ∧
    findGrad [(1, (⟨[], [1]⟩ : Tensor)), (0, ⟨[1, 1], [2]⟩)] 0 =
      sumContribs exXX [⟨[1, 1], [5]⟩, ⟨[1, 1], [10]⟩]
        [(1, ⟨[], [1]⟩), (0, ⟨[1, 1], [2]⟩)] [1, 0] 0 := by
  refine ⟨by decide, by decide, by decide, ?_⟩
  exact gradient_accumulates_all_edges exXX 1 10 0 [1, 0] (initVals exXX)
    [⟨[1, 1], [5]⟩, ⟨[1, 1], [10]⟩] [(1, ⟨[], [1]⟩), (0, ⟨[1, 1], [2]⟩)]
    (by decide) (by decide) (by decide) (by decide) (by decide) (by decide) (by decide)
